import Mathlib

/-!
Verification development for the CRWLR crawler (`crwlr_async.py`,
`functions/buffer_handler.py`).

The Python source is shallowly embedded over `List Char` strings.  URLs are
manipulated through a faithful model of CPython's `urllib.parse` functions
(`urlsplit`, `urlunsplit`, `_splitparams`, `urlparse`, `urlunparse`,
`urljoin`), which the crawler calls.  The model follows the CPython source;
the control-character stripping added to late CPython versions for security
hardening, and the `ValueError` raised on unbalanced brackets in a netloc,
are omitted (neither changes any component computed for the URLs at issue,
and the bracket check only turns both sides of every equation below into the
same exception).
-/

namespace Crwlr

/-- Characters CPython accepts inside a URL scheme (`scheme_chars` in
`urllib/parse.py`): ASCII letters, digits, `+`, `-`, `.`.
`Char.isAlpha`/`Char.isDigit` are ASCII-only, matching CPython's
`isascii() and isalpha()` guard together with membership in `scheme_chars`. -/
def isSchemeChar (c : Char) : Bool :=
  c.isAlpha || c.isDigit || c == '+' || c == '-' || c == '.'

/-- Lowercase a string (CPython `str.lower`, ASCII range as used for schemes). -/
def lowerStr (l : List Char) : List Char := l.map Char.toLower

/-- Split a string at the first occurrence of character `c`:
returns the part before it and, when `c` occurs, the part after it
(`s.split(c, 1)` / `s.find(c)` in Python). -/
def breakAtChar (c : Char) : List Char → List Char × Option (List Char)
  | [] => ([], none)
  | x :: xs =>
    if x = c then ([], some xs)
    else
      let r := breakAtChar c xs
      (x :: r.1, r.2)

/-- Characters that terminate the netloc in `urlsplit` (`_splitnetloc`
scans until `/`, `?` or `#`). -/
def isNetlocChar (c : Char) : Bool :=
  !(c == '/' || c == '?' || c == '#')

/-- Scheme recognition of CPython `urlsplit`: the text before the first `:`
must be nonempty, start with an ASCII letter and consist of scheme
characters only; the recognized scheme is lowercased. -/
def schemeSplit (u : List Char) : Option (List Char × List Char) :=
  match breakAtChar ':' u with
  | (_, none) => none
  | (pre, some rest) =>
    match pre with
    | [] => none
    | c :: cs =>
      if c.isAlpha && (c :: cs).all isSchemeChar then some (lowerStr (c :: cs), rest)
      else none

/-- Result of `urlsplit`: the 5-tuple `(scheme, netloc, path, query, fragment)`. -/
structure SplitResult where
  scheme : List Char
  netloc : List Char
  path : List Char
  query : List Char
  fragment : List Char
deriving Repr, DecidableEq

/-- The last two statements of CPython `urlsplit` (after scheme and netloc
are fixed): split off the fragment at the first `#`, then the query at the
first `?` of what precedes it. -/
def splitAfterNetloc (scheme netloc rest : List Char) : SplitResult :=
  let fp := match breakAtChar '#' rest with
    | (a, some b) => (a, b)
    | (a, none) => (a, [])
  let pq := match breakAtChar '?' fp.1 with
    | (a, some b) => (a, b)
    | (a, none) => (a, [])
  ⟨scheme, netloc, pq.1, pq.2, fp.2⟩

/-- The netloc statement of CPython `urlsplit`: when the remainder starts
with `//`, the netloc is everything after it up to the first `/`, `?`
or `#` (`_splitnetloc`). -/
def splitAfterScheme (scheme rest : List Char) : SplitResult :=
  if rest.take 2 == ['/', '/'] then
    splitAfterNetloc scheme ((rest.drop 2).takeWhile isNetlocChar)
      ((rest.drop 2).dropWhile isNetlocChar)
  else
    splitAfterNetloc scheme [] rest

/-- CPython `urllib.parse.urlsplit(url, scheme=dflt, allow_fragments=True)`:
scheme before the first `:` (validated; the provided default when absent),
netloc after a leading `//` up to `/?#`, then fragment after the first `#`,
then query after the first `?`. -/
def urlsplit (dflt : List Char) (u : List Char) : SplitResult :=
  match schemeSplit u with
  | some (s, r) => splitAfterScheme s r
  | none => splitAfterScheme dflt u

/-- CPython `urllib.parse.urlunsplit`. -/
def urlunsplit (r : SplitResult) : List Char :=
  let url := r.path
  let url :=
    if !r.netloc.isEmpty || url.take 2 == ['/', '/'] then
      ['/', '/'] ++ r.netloc ++
        (if !url.isEmpty && url.take 1 != ['/'] then '/' :: url else url)
    else url
  let url := if !r.scheme.isEmpty then r.scheme ++ ':' :: url else url
  let url := if !r.query.isEmpty then url ++ '?' :: r.query else url
  if !r.fragment.isEmpty then url ++ '#' :: r.fragment else url

/-- Split a string at its last `/` (Python `s.rfind('/')`): the part before
and the part after, the latter free of `/`. -/
def splitAtLastSlash (l : List Char) : Option (List Char × List Char) :=
  match breakAtChar '/' l.reverse with
  | (_, none) => none
  | (revAfter, some revBefore) => some (revBefore.reverse, revAfter.reverse)

/-- CPython `urllib.parse._splitparams`: split the path's params at the first
`;` that follows the last `/` (or the first `;` overall when there is no
`/`); no such `;` leaves the path unchanged with empty params. -/
def splitparams (l : List Char) : List Char × List Char :=
  match splitAtLastSlash l with
  | some (before, after) =>
    match breakAtChar ';' after with
    | (a, some b) => (before ++ '/' :: a, b)
    | (_, none) => (l, [])
  | none =>
    match breakAtChar ';' l with
    | (a, some b) => (a, b)
    | (_, none) => (l, [])

/-- Result of `urlparse`: the 6-tuple with params split out of the path. -/
structure ParseResult where
  scheme : List Char
  netloc : List Char
  path : List Char
  params : List Char
  query : List Char
  fragment : List Char
deriving Repr, DecidableEq

/-- CPython `uses_params`: schemes whose paths carry `;params`. -/
def usesParams : List (List Char) :=
  [[], "ftp".data, "hdl".data, "prospero".data, "http".data, "imap".data,
   "https".data, "shttp".data, "rtsp".data, "rtspu".data, "sip".data,
   "sips".data, "mms".data, "sftp".data, "tel".data]

/-- CPython `urllib.parse.urlparse(url, scheme=dflt)`. -/
def urlparse (dflt : List Char) (u : List Char) : ParseResult :=
  let s := urlsplit dflt u
  if usesParams.contains s.scheme && s.path.contains ';' then
    let pp := splitparams s.path
    ⟨s.scheme, s.netloc, pp.1, pp.2, s.query, s.fragment⟩
  else
    ⟨s.scheme, s.netloc, s.path, [], s.query, s.fragment⟩

/-- CPython `urllib.parse.urlunparse`. -/
def urlunparse (r : ParseResult) : List Char :=
  urlunsplit ⟨r.scheme, r.netloc,
    (if !r.params.isEmpty then r.path ++ ';' :: r.params else r.path),
    r.query, r.fragment⟩

/-- `normalize_url` (crwlr_async.py:306): re-assemble the parsed URL with an
empty fragment. -/
def normalize_url (u : List Char) : List Char :=
  let parsed := urlparse [] u
  urlunparse ⟨parsed.scheme, parsed.netloc, parsed.path, parsed.params,
    parsed.query, []⟩

/-- CPython `uses_relative`: schemes for which relative joining applies. -/
def usesRelative : List (List Char) :=
  [[], "ftp".data, "http".data, "gopher".data, "nntp".data, "imap".data,
   "wais".data, "file".data, "https".data, "shttp".data, "mms".data,
   "prospero".data, "rtsp".data, "rtspu".data, "sftp".data, "svn".data,
   "svn+ssh".data, "ws".data, "wss".data]

/-- CPython `uses_netloc`: schemes whose URLs have a network location. -/
def usesNetloc : List (List Char) :=
  [[], "ftp".data, "http".data, "gopher".data, "nntp".data, "telnet".data,
   "imap".data, "wais".data, "file".data, "mms".data, "https".data,
   "shttp".data, "snews".data, "prospero".data, "rtsp".data, "rtspu".data,
   "rsync".data, "svn".data, "svn+ssh".data, "sftp".data, "nfs".data,
   "git".data, "git+ssh".data, "ws".data, "wss".data]

/-- Python `str.split(c)`: always a nonempty list; `''.split(c) == ['']`. -/
def splitOnChar (c : Char) : List Char → List (List Char)
  | [] => [[]]
  | x :: xs =>
    if x = c then [] :: splitOnChar c xs
    else
      match splitOnChar c xs with
      | [] => [[x]]
      | h :: t => (x :: h) :: t

/-- Python `c.join(parts)`. -/
def joinChar (c : Char) : List (List Char) → List Char
  | [] => []
  | [a] => a
  | a :: b :: t => a ++ c :: joinChar c (b :: t)

/-- `segments[1:-1] = filter(None, segments[1:-1])` in CPython `urljoin`:
drop empty segments, keeping the first and last elements untouched. -/
def filterInterior : List (List Char) → List (List Char)
  | [] => []
  | [a] => [a]
  | a :: rest =>
    a :: (rest.dropLast.filter (fun x => !x.isEmpty) ++ [rest.getLastD []])

/-- The `..`/`.` resolution loop of CPython `urljoin` (`resolved_path`);
popping an empty stack is ignored (`except IndexError: pass`). -/
def resolveSegments (acc : List (List Char)) : List (List Char) → List (List Char)
  | [] => acc
  | seg :: rest =>
    if seg = "..".data then resolveSegments acc.dropLast rest
    else if seg = ".".data then resolveSegments acc rest
    else resolveSegments (acc ++ [seg]) rest

/-- CPython `urllib.parse.urljoin(base, url)`. -/
def urljoin (base url : List Char) : List Char :=
  if base.isEmpty then url
  else if url.isEmpty then base
  else
    let b := urlparse [] base
    let r := urlparse b.scheme url
    if r.scheme != b.scheme || !usesRelative.contains r.scheme then url
    else
      let netloc0 :=
        if usesNetloc.contains r.scheme then
          (if !r.netloc.isEmpty then r.netloc else b.netloc)
        else r.netloc
      if usesNetloc.contains r.scheme && !r.netloc.isEmpty then
        urlunparse ⟨r.scheme, r.netloc, r.path, r.params, r.query, r.fragment⟩
      else if r.path.isEmpty && r.params.isEmpty then
        urlunparse ⟨r.scheme, netloc0, b.path, b.params,
          (if r.query.isEmpty then b.query else r.query), r.fragment⟩
      else
        let baseParts0 := splitOnChar '/' b.path
        let baseParts :=
          if baseParts0.getLastD [] != ([] : List Char) then baseParts0.dropLast
          else baseParts0
        let segments :=
          if r.path.take 1 == ['/'] then splitOnChar '/' r.path
          else filterInterior (baseParts ++ splitOnChar '/' r.path)
        let resolved := resolveSegments [] segments
        let resolved :=
          if segments.getLastD [] == ".".data || segments.getLastD [] == "..".data
          then resolved ++ [[]] else resolved
        let joined := joinChar '/' resolved
        urlunparse ⟨r.scheme, netloc0, (if joined.isEmpty then ['/'] else joined),
          r.params, r.query, r.fragment⟩

/-- The one `ValueError` CPython's `urlsplit` raises on ordinary strings:
after the scheme is split off, a URL whose remainder starts `//` has its
netloc (the run up to the first `/`, `?` or `#`) checked for mismatched
square brackets, and `ValueError("Invalid IPv6 URL")` is raised when one of
`[`, `]` appears without the other. -/
def urlsplitRaises (u : List Char) : Bool :=
  let rest := match schemeSplit u with
    | some (_, r) => r
    | none => u
  if rest.take 2 = ['/', '/'] then
    let netloc := (rest.drop 2).takeWhile isNetlocChar
    (netloc.contains '[' && !netloc.contains ']') ||
      (netloc.contains ']' && !netloc.contains '[')
  else false

/-- Whether resolving one candidate string raises `ValueError`: the crawler
computes `normalize_url(urljoin(base, href))`, whose raise points are
`urljoin`'s two internal `urlsplit` calls (skipped when either argument is
empty, which short-circuits the join) and `normalize_url`'s parse of the
joined string.  Candidates that survived this resolution re-parse without
the error (their netloc is unchanged by the round trip), so the later
`urlparse` in the candidate loop cannot raise on them. -/
def resolveRaises (base href : List Char) : Bool :=
  (!base.isEmpty && !href.isEmpty &&
    (urlsplitRaises base || urlsplitRaises href)) ||
  urlsplitRaises (urljoin base href)

/-! ### Model of the external `tldextract` library

`crwlr_async.py` classifies hosts with `tldextract.extract`, which splits a
host into `(subdomain, domain, suffix)` against the public-suffix list.  The
model below implements that documented behaviour over a fixed sample of the
public-suffix list (ample for every URL appearing in the claims); hosts with
no listed suffix get an empty suffix and their last label as the domain,
matching the library.  IP/IPv6 handling and unicode dots are out of scope. -/

/-- Sample of the public-suffix list, as label sequences. -/
def publicSuffixList : List (List (List Char)) :=
  [["com".data], ["org".data], ["net".data], ["io".data], ["gov".data],
   ["edu".data], ["uk".data], ["co".data, "uk".data], ["ac".data, "uk".data],
   ["test".data], ["dev".data], ["app".data]]

/-- Result of `tldextract.extract`: `(subdomain, domain, suffix)` strings. -/
structure TldExtractResult where
  subdomain : List Char
  domain : List Char
  suffix : List Char
deriving Repr, DecidableEq

/-- Host part of a URL as `tldextract`'s `lenient_netloc` computes it for
scheme-ful URLs: the netloc, after the last `@`, before the first `:`,
trailing dots removed, lowercased. -/
def lenientHost (url : List Char) : List Char :=
  let netloc := (urlsplit [] url).netloc
  let afterUser :=
    match breakAtChar '@' netloc.reverse with
    | (revHost, some _) => revHost.reverse
    | (_, none) => netloc
  let host := (breakAtChar ':' afterUser).1
  lowerStr (host.reverse.dropWhile (fun c => c == '.')).reverse

/-- Model of `tldextract.extract(url)`. -/
def tldExtract (url : List Char) : TldExtractResult :=
  let labels := splitOnChar '.' (lenientHost url)
  let suffix :=
    publicSuffixList.foldl
      (fun best rule =>
        if rule.isSuffixOf labels && best.length < rule.length then rule
        else best)
      []
  let pre := labels.take (labels.length - suffix.length)
  ⟨joinChar '.' pre.dropLast, pre.getLastD [], joinChar '.' suffix⟩

/-- `is_same_domain` (crwlr_async.py:320): registrable domain + suffix of the
two URLs match. -/
def is_same_domain (url1 url2 : List Char) : Bool :=
  let ext1 := tldExtract url1
  let ext2 := tldExtract url2
  ext1.domain == ext2.domain && ext1.suffix == ext2.suffix

/-- `get_subdomain` (crwlr_async.py:326): `subdomain.domain.suffix` unless
the subdomain is empty or exactly `www`. -/
def get_subdomain (url : List Char) : Option (List Char) :=
  let ext := tldExtract url
  if !ext.subdomain.isEmpty && ext.subdomain != "www".data then
    some (ext.subdomain ++ '.' :: ext.domain ++ '.' :: ext.suffix)
  else none

/-- `should_exclude` (crwlr_async.py:333).  The user-supplied regexes of
`re.search` are modelled as opaque boolean matchers: the path pattern is
tested against the URL's path component, the subdomain pattern against the
extracted subdomain when there is one. -/
def should_exclude (url : List Char) (excludePaths excludeSubdomains :
    Option (List Char → Bool)) : Bool :=
  (match excludePaths with
   | some pat => pat (urlparse [] url).path
   | none => false) ||
  (match excludeSubdomains with
   | some pat =>
     match get_subdomain url with
     | some sd => pat sd
     | none => false
   | none => false)

/-! ### Link extraction from JSON bodies -/

/-- Parsed JSON values as `response.json()` yields them. -/
inductive JValue where
  | str (s : List Char)
  | num (n : Int)
  | boolean (b : Bool)
  | null
  | obj (kvs : List (List Char × JValue))
  | arr (xs : List JValue)

/-- `value.startswith(('http://', 'https://', '/'))` in
`extract_urls_from_json`. -/
def urlLikeStr (s : List Char) : Bool :=
  "http://".data.isPrefixOf s || "https://".data.isPrefixOf s ||
    "/".data.isPrefixOf s

mutual

/-- `extract_urls_from_json` (crwlr_async.py:345): walk dicts and lists; a
string that is a dict value and starts with `http://`, `https://` or `/` is
resolved against the base URL and normalized.  (A string that is a direct
list element falls into neither `isinstance` branch of the Python function
and yields nothing.) -/
def extract_urls_from_json (data : JValue) (base : List Char) :
    List (List Char) :=
  match data with
  | .obj kvs => extractFromPairs kvs base
  | .arr xs => extractFromItems xs base
  | _ => []

/-- The dict branch of `extract_urls_from_json`, one key/value pair at a
time, in dict order. -/
def extractFromPairs (kvs : List (List Char × JValue)) (base : List Char) :
    List (List Char) :=
  match kvs with
  | [] => []
  | (_, v) :: rest =>
    (match v with
     | .str s => if urlLikeStr s then [normalize_url (urljoin base s)] else []
     | .obj kvs' => extractFromPairs kvs' base
     | .arr xs' => extractFromItems xs' base
     | _ => []) ++ extractFromPairs rest base

/-- The list branch of `extract_urls_from_json`. -/
def extractFromItems (xs : List JValue) (base : List Char) :
    List (List Char) :=
  match xs with
  | [] => []
  | x :: rest => extract_urls_from_json x base ++ extractFromItems rest base

end

mutual

/-- Specification-side collector: every string value that occurs as an
immediate dictionary value anywhere in the tree (including dictionaries
nested inside lists) and starts with `http://`, `https://` or `/`, in tree
order.  Used to characterize `extract_urls_from_json`. -/
def dictValueCandidates : JValue → List (List Char)
  | .obj kvs => dictValueCandidatesPairs kvs
  | .arr xs => dictValueCandidatesItems xs
  | _ => []

/-- `dictValueCandidates` over a dictionary's pairs. -/
def dictValueCandidatesPairs : List (List Char × JValue) → List (List Char)
  | [] => []
  | (_, v) :: rest =>
    (match v with
     | .str s => if urlLikeStr s then [s] else []
     | .obj kvs' => dictValueCandidatesPairs kvs'
     | .arr xs' => dictValueCandidatesItems xs'
     | _ => []) ++ dictValueCandidatesPairs rest

/-- `dictValueCandidates` over a list's items. -/
def dictValueCandidatesItems : List JValue → List (List Char)
  | [] => []
  | x :: rest => dictValueCandidates x ++ dictValueCandidatesItems rest

end

/-! ### Buffer handler (`functions/buffer_handler.py`)

`CrawlBufferHandler`: an in-memory record buffer, mirrored to a recovery
JSON file on every append, flushed to the database sink in batches.  The
recovery mirror file is modelled as `Option (List BufRecord)` (`none` =
file absent).  The filesystem itself is assumed to work (the Python wraps
the mirror write in `try/except` and logs failures); the only modelled
fault is the database insert (`_insert_to_database` raising), which is the
failure mode the spec discusses, supplied as the `insertOk` argument of
`flush`. -/

/-- One URL outcome record, as built by `add_url_record`
(buffer_handler.py:90); the constant `session_id` field is omitted. -/
structure UrlRecord where
  url : List Char
  normalized_url : List Char
  domain : List Char
  path : List Char
  depth : Nat
  status_code : Option Nat
  content_type : Option (List Char)
  response_time_ms : Option Nat
  error_message : Option (List Char)
deriving Repr, DecidableEq

/-- One subdomain record, as built by `add_subdomain_record`. -/
structure SubdomainRecord where
  subdomain : List Char
  base_domain : List Char
deriving Repr, DecidableEq

/-- A buffered record with its `type` tag (`url` / `subdomain`). -/
inductive BufRecord where
  | url (r : UrlRecord)
  | subdomain (r : SubdomainRecord)
deriving Repr, DecidableEq

/-- The mutable state of a `CrawlBufferHandler`. -/
structure BufferState where
  buffer : List BufRecord
  mirror : Option (List BufRecord)
  bufferLimit : Nat
  flushCount : Nat
  totalFlushed : Nat
deriving Repr, DecidableEq

/-- `CrawlBufferHandler.__init__`: empty buffer; the mirror file is not
created (nor deleted) by the constructor. -/
def initBuffer (limit : Nat) : BufferState :=
  ⟨[], none, limit, 0, 0⟩

/-- `_write_buffer_to_json` (buffer_handler.py:224): overwrite the mirror
file with the full current buffer. -/
def write_buffer_to_json (s : BufferState) : BufferState :=
  { s with mirror := some s.buffer }

/-- `add_record` (buffer_handler.py:78): append to the in-memory buffer,
then synchronously rewrite the recovery mirror. -/
def add_record (s : BufferState) (r : BufRecord) : BufferState :=
  write_buffer_to_json { s with buffer := s.buffer ++ [r] }

/-- `add_url_record` (buffer_handler.py:90). -/
def add_url_record (s : BufferState) (r : UrlRecord) : BufferState :=
  add_record s (.url r)

/-- `add_subdomain_record` (buffer_handler.py:131). -/
def add_subdomain_record (s : BufferState) (sub base : List Char) :
    BufferState :=
  add_record s (.subdomain ⟨sub, base⟩)

/-- `should_flush` (buffer_handler.py:151). -/
def should_flush (s : BufferState) : Bool :=
  s.bufferLimit ≤ s.buffer.length

/-- `flush` (buffer_handler.py:155).  `insertOk` says whether
`_insert_to_database` succeeds.  On success the buffer is cleared, the
mirror file deleted and the counters bumped; the raising path runs the
`except` branch, which `extend`s the buffer with the copied batch — the
buffer was never cleared, so its contents end up duplicated — and leaves
the mirror file in place.  Returns the new state and the record count the
Python function returns. -/
def flush (insertOk : Bool) (s : BufferState) : BufferState × Nat :=
  if s.buffer.isEmpty then (s, 0)
  else if insertOk then
    ({ s with
        buffer := []
        mirror := none
        flushCount := s.flushCount + 1
        totalFlushed := s.totalFlushed + s.buffer.length }, s.buffer.length)
  else
    ({ s with buffer := s.buffer ++ s.buffer }, 0)

/-- `flush_if_needed` (buffer_handler.py:194). -/
def flush_if_needed (insertOk : Bool) (s : BufferState) : BufferState × Nat :=
  if should_flush s then flush insertOk s else (s, 0)

/-- `final_flush` (buffer_handler.py:205): flush the remainder, then remove
any leftover mirror file unconditionally. -/
def final_flush (insertOk : Bool) (s : BufferState) : BufferState × Nat :=
  let r := flush insertOk s
  ({ r.1 with mirror := none }, r.2)

/-! ### The Fetch Worker (`crawl_url`) and the scheduler loop (`main`)

`crwlr_async.py` runs `crawl_url` tasks on a single-threaded asyncio loop.
The embedding executes one attempt as a sequential function over an
explicit state; the network is an oracle `net : List Char → FetchOutcome`
describing what `session.get(url)` does.  The global `shutdown_flag` is a
single flag that tasks read at defined points; it is passed as two booleans:
`shutdownAtEntry` (its value at the check that opens `crawl_url`) and
`shutdownDuring` (its value at the checks inside the extraction and
candidate loops), so that a flag flipped mid-attempt is representable.
Console printing, logging, the progress bar and timing are not modelled. -/

/-- Python substring test `needle in hay` (used on the lowercased
`Content-Type` header). -/
def containsSeq (needle : List Char) : List Char → Bool
  | [] => needle.isEmpty
  | c :: rest => needle.isPrefixOf (c :: rest) || containsSeq needle rest

/-- What `await response.json()` does for a 200 response: a parsed value; a
`json.JSONDecodeError` (caught by the crawler's inner `try`); an
`asyncio.TimeoutError` (the total client timeout spans the body read); an
`aiohttp.ClientError` such as `ContentTypeError` or `ClientPayloadError`;
or some other exception carrying its message.  All but the first two
propagate to the outer `except` chain. -/
inductive JsonRead where
  | ok (v : JValue)
  | decodeError
  | raiseTimeout
  | raiseClient (msg : List Char)
  | raiseOther (msg : List Char)

/-- What `await response.text()` plus the BeautifulSoup anchor scan does for
a 200 HTML response: the scanned `href` attribute values in document order;
an `asyncio.TimeoutError` of the body read; an `aiohttp.ClientError`; or
any other exception carrying its message.  The raises propagate to the
outer `except` chain. -/
inductive TextRead where
  | ok (hrefs : List (List Char))
  | raiseTimeout
  | raiseClient (msg : List Char)
  | raiseErr (msg : List Char)

/-- Outcome of `session.get(url)` as the oracle reports it:
a 200 response (with final post-redirect URL, `Content-Type` header,
elapsed milliseconds, and body-read behaviour), a non-200 response, an
`asyncio.TimeoutError`, an `aiohttp.ClientError`, or any other exception. -/
inductive FetchOutcome where
  | success (finalUrl : List Char) (contentType : Option (List Char))
      (elapsedMs : Nat) (jsonRead : JsonRead) (textRead : TextRead)
  | non200 (status : Nat) (contentType : Option (List Char)) (elapsedMs : Nat)
  | timeout
  | clientError (msg : List Char)
  | otherError (msg : List Char)

/-- The command-line arguments `crawl_url` consults.  `max_depth` is an
`Int` because `argparse` accepts any integer.  The exclusion regexes are
opaque matchers as in `should_exclude`. -/
structure CrawlArgs where
  max_depth : Int
  workers : Nat
  exclude_paths : Option (List Char → Bool)
  exclude_subdomains : Option (List Char → Bool)

/-- The mutable state shared by all workers of a session: the three
discovery sets (`visited_urls`, `found_subdomains`, `found_paths`, as
insertion-ordered lists with set semantics) and the optional
`CrawlBufferHandler` (`none` when the run has no database). -/
structure CrawlState where
  visited : List (List Char)
  found_subdomains : List (List Char)
  found_paths : List (List Char)
  buf : Option BufferState
deriving Repr, DecidableEq

/-- A `handler.add_url_record(...)` call site: append to the buffer when a
handler is present (the Python guards each call with `if handler:`). -/
def emitRecord (st : CrawlState) (r : UrlRecord) : CrawlState :=
  { st with buf := st.buf.map (fun b => add_url_record b r) }

/-- Build the record fields every `add_url_record` call site computes:
`urlparse(url)` for domain and path, `normalize_url(url)`. -/
def mkUrlRecord (url : List Char) (depth : Nat) (status : Option Nat)
    (ct : Option (List Char)) (rt : Option Nat) (err : Option (List Char)) :
    UrlRecord :=
  let parsed := urlparse [] url
  ⟨url, normalize_url url, parsed.netloc, parsed.path, depth, status, ct, rt,
   err⟩

/-- The `if subdomain: ... if subdomain not in found_subdomains: add` blocks
of `crawl_url`. -/
def noteSubdomain (st : CrawlState) (sub : Option (List Char)) : CrawlState :=
  match sub with
  | some sd =>
    if !st.found_subdomains.contains sd then
      { st with found_subdomains := st.found_subdomains ++ [sd] }
    else st
  | none => st

/-- The candidate-processing loop of `crawl_url` (crwlr_async.py:501-527):
skip non-http(s) schemes, skip excluded URLs, and for same-domain
candidates note the subdomain and emit a child `(url, depth+1)` when
`depth < max_depth`.  Returns the updated state and the children in order. -/
def processCandidates (args : CrawlArgs) (base_domain : List Char)
    (depth : Nat) :
    List (List Char) → CrawlState → CrawlState × List (List Char × Nat)
  | [], st => (st, [])
  | normalized :: rest, st =>
    let parsed := urlparse [] normalized
    if !(parsed.scheme == "http".data || parsed.scheme == "https".data) then
      processCandidates args base_domain depth rest st
    else if should_exclude normalized args.exclude_paths
        args.exclude_subdomains then
      processCandidates args base_domain depth rest st
    else if is_same_domain normalized base_domain then
      let st := noteSubdomain st (get_subdomain normalized)
      if (depth : Int) < args.max_depth then
        let r := processCandidates args base_domain depth rest st
        (r.1, (normalized, depth + 1) :: r.2)
      else
        processCandidates args base_domain depth rest st
    else
      processCandidates args base_domain depth rest st

/-- The `found_paths` update of the 200 branch (crwlr_async.py:446-454). -/
def notePaths (st : CrawlState) (base_domain url finalUrl : List Char) :
    CrawlState :=
  let st :=
    if is_same_domain url base_domain && !st.found_paths.contains url then
      { st with found_paths := st.found_paths ++ [url] }
    else st
  if finalUrl != url && is_same_domain finalUrl base_domain &&
      !st.found_paths.contains finalUrl then
    { st with found_paths := st.found_paths ++ [finalUrl] }
  else st

/-- `crawl_url` (crwlr_async.py:383): one fetch attempt.  Returns the
updated shared state and the `new_urls` child list the coroutine returns.
`potential` is `.error msg` when the 200 branch, after its success record,
raises out of the body read or the candidate resolution: the body read
raising `asyncio.TimeoutError`, an `aiohttp.ClientError` or a generic
exception, or `urljoin`/`urlparse` raising `ValueError("Invalid IPv6 URL")`
on a bracket-malformed candidate (only `json.JSONDecodeError` is caught
inline).  The matching outer `except` branch then emits a second (error)
record for the same attempt, with that branch's `error_message`. -/
def crawl_url (net : List Char → FetchOutcome) (args : CrawlArgs)
    (base_domain : List Char) (url : List Char) (depth : Nat)
    (shutdownAtEntry shutdownDuring : Bool) (st : CrawlState) :
    CrawlState × List (List Char × Nat) :=
  if shutdownAtEntry then (st, [])
  else if st.visited.contains url then (st, [])
  else
    let st := { st with visited := st.visited ++ [url] }
    match net url with
    | .timeout =>
      (emitRecord st
        (mkUrlRecord url depth none none none (some "Request timeout".data)),
       [])
    | .clientError msg =>
      (emitRecord st
        (mkUrlRecord url depth none none none
          (some ("Client error: ".data ++ msg.take 200))), [])
    | .otherError msg =>
      (emitRecord st
        (mkUrlRecord url depth none none none
          (some ("Error: ".data ++ msg.take 200))), [])
    | .non200 status ct ms =>
      (emitRecord st (mkUrlRecord url depth (some status) ct (some ms) none),
       [])
    | .success finalUrl ct ms jsonRead textRead =>
      let st := emitRecord st
        (mkUrlRecord url depth (some 200) ct (some ms) none)
      let st := notePaths st base_domain url finalUrl
      let st := noteSubdomain st (get_subdomain finalUrl)
      let ctl := lowerStr (ct.getD [])
      let potential : Except (List Char) (List (List Char)) :=
        if containsSeq "application/json".data ctl then
          match jsonRead with
          | .ok v =>
            if (dictValueCandidates v).any (fun t => resolveRaises url t) then
              .error ("Error: ".data ++ "Invalid IPv6 URL".data.take 200)
            else .ok (extract_urls_from_json v url)
          | .decodeError => .ok []
          | .raiseTimeout => .error "Request timeout".data
          | .raiseClient msg => .error ("Client error: ".data ++ msg.take 200)
          | .raiseOther msg => .error ("Error: ".data ++ msg.take 200)
        else if containsSeq "text/html".data ctl then
          match textRead with
          | .ok hrefs =>
            if shutdownDuring then .ok []
            else if hrefs.any (fun h => resolveRaises url h) then
              .error ("Error: ".data ++ "Invalid IPv6 URL".data.take 200)
            else .ok (hrefs.map (fun h => normalize_url (urljoin url h)))
          | .raiseTimeout => .error "Request timeout".data
          | .raiseClient msg => .error ("Client error: ".data ++ msg.take 200)
          | .raiseErr msg => .error ("Error: ".data ++ msg.take 200)
        else .ok []
      match potential with
      | .error m =>
        (emitRecord st (mkUrlRecord url depth none none none (some m)), [])
      | .ok pot =>
        if shutdownDuring then (st, [])
        else processCandidates args base_domain depth pot st

/-- State of the `main` scheduler loop: the pending `urls_to_visit` FIFO
and the shared crawl state. -/
structure SchedState where
  pending : List (List Char × Nat)
  cs : CrawlState
deriving Repr, DecidableEq

/-- The batch-drawing loop of `main` (crwlr_async.py:752-755):
`for _ in range(batch_size): if urls_to_visit and not shutdown_flag:
batch.append(urls_to_visit.pop(0))`.  Iterations whose condition fails do
nothing but the loop keeps running. -/
def drawBatch (flag : Bool) :
    Nat → List (List Char × Nat) →
      List (List Char × Nat) × List (List Char × Nat)
  | 0, pending => ([], pending)
  | n + 1, pending =>
    if !pending.isEmpty && !flag then
      match pending with
      | [] => ([], [])
      | x :: rest =>
        let r := drawBatch flag n rest
        (x :: r.1, r.2)
    else
      drawBatch flag n pending

/-- `asyncio.gather` over the batch's `crawl_url` tasks, collecting each
task's returned child list separately (the asyncio loop is single-threaded;
the per-attempt effects on the shared sets are serialized by the locks, so
a batch is one interleaving of the attempts — batch order here). -/
def runBatch (net : List Char → FetchOutcome) (args : CrawlArgs)
    (base_domain : List Char) (entryFlag duringFlag : Bool) :
    List (List Char × Nat) → CrawlState →
      CrawlState × List (List (List Char × Nat))
  | [], st => (st, [])
  | (u, d) :: rest, st =>
    let one := crawl_url net args base_domain u d entryFlag duringFlag st
    let r := runBatch net args base_domain entryFlag duringFlag rest one.1
    (r.1, one.2 :: r.2)

/-- The result-merging loop of `main` (crwlr_async.py:764-773): for each
task result, keep only entries whose URL is not in `visited_urls`, and
extend the pending list. -/
def collectNew (visited : List (List Char)) :
    List (List (List Char × Nat)) → List (List Char × Nat)
  | [] => []
  | r :: rest =>
    r.filter (fun e => !visited.contains e.1) ++ collectNew visited rest

/-- One iteration of the `while urls_to_visit and not shutdown_flag` loop
of `main` (crwlr_async.py:749-773).  `flag` is the shutdown flag's value
during this iteration (dispatch check, batch draw and task entry);
`duringFlag` its value at the in-attempt checks.  When the loop condition
fails the state is unchanged (the loop has exited). -/
def schedStep (net : List Char → FetchOutcome) (args : CrawlArgs)
    (base_domain : List Char) (flag duringFlag : Bool) (s : SchedState) :
    SchedState :=
  if s.pending.isEmpty || flag then s
  else
    let n := min (args.workers * 2) s.pending.length
    let db := drawBatch flag n s.pending
    let rb := runBatch net args base_domain flag duringFlag db.1 s.cs
    ⟨db.2 ++ collectNew rb.1.visited rb.2, rb.1⟩

/-- The scheduler loop run under a schedule of per-iteration flag values
(`(flag, duringFlag)` pairs). -/
def schedRun (net : List Char → FetchOutcome) (args : CrawlArgs)
    (base_domain : List Char) :
    List (Bool × Bool) → SchedState → SchedState
  | [], s => s
  | f :: rest, s =>
    schedRun net args base_domain rest
      (schedStep net args base_domain f.1 f.2 s)

/-- Session start in `main` (crwlr_async.py:730): the frontier holds the
normalized base URL at depth 0 and the shared sets are empty. -/
def initSched (base_url : List Char) (buf : Option BufferState) : SchedState :=
  ⟨[(base_url, 0)], ⟨[], [], [], buf⟩⟩

/-- The terminal status recorded by `main` (crwlr_async.py:873):
`'interrupted' if shutdown_flag else 'completed'`. -/
def finalStatus (shutdownFlag : Bool) : List Char :=
  if shutdownFlag then "interrupted".data else "completed".data

/-- Number of records currently buffered by the (optional) handler;
`0` when the run has no database handler. -/
def bufferLen (st : CrawlState) : Nat :=
  match st.buf with
  | some b => b.buffer.length
  | none => 0

/-- Whether the 200 branch, after emitting its success record, takes one of
the outer `except` paths and so emits a second (error) record for the same
attempt: the body read raising `asyncio.TimeoutError`, an
`aiohttp.ClientError` or any other exception; a JSON dict-value candidate
whose resolution raises `ValueError("Invalid IPv6 URL")`; or — when the
shutdown flag is not yet set, so the anchor loop actually resolves — an
HTML `href` whose resolution raises it.  Mirrors the error condition of
`crawl_url`'s `potential`. -/
def attemptErrorAfter200 (url : List Char) (dur : Bool) :
    FetchOutcome → Bool
  | .success _ ct _ jsonRead textRead =>
    let ctl := lowerStr (ct.getD [])
    if containsSeq "application/json".data ctl then
      match jsonRead with
      | .ok v => (dictValueCandidates v).any (fun t => resolveRaises url t)
      | .decodeError => false
      | .raiseTimeout => true
      | .raiseClient _ => true
      | .raiseOther _ => true
    else if containsSeq "text/html".data ctl then
      match textRead with
      | .ok hrefs => !dur && hrefs.any (fun h => resolveRaises url h)
      | .raiseTimeout => true
      | .raiseClient _ => true
      | .raiseErr _ => true
    else false
  | _ => false

/-! ## Foundation lemmas -/

theorem breakAtChar_of_not_mem {c : Char} :
    ∀ {l : List Char}, c ∉ l → breakAtChar c l = (l, none)
  | [], _ => rfl
  | x :: xs, h => by
    have hx : ¬ x = c := fun he => h (he ▸ List.mem_cons_self x xs)
    have hxs : c ∉ xs := fun hm => h (List.mem_cons_of_mem _ hm)
    simp [breakAtChar, hx, breakAtChar_of_not_mem hxs]

theorem breakAtChar_append_of_not_mem {c : Char} :
    ∀ {a : List Char}, c ∉ a → ∀ b : List Char,
      breakAtChar c (a ++ c :: b) = (a, some b)
  | [], _, b => by simp [breakAtChar]
  | x :: xs, h, b => by
    have hx : ¬ x = c := fun he => h (he ▸ List.mem_cons_self x xs)
    have hxs : c ∉ xs := fun hm => h (List.mem_cons_of_mem _ hm)
    simp [breakAtChar, hx, breakAtChar_append_of_not_mem hxs b]

theorem breakAtChar_append_left {c : Char} :
    ∀ {p : List Char}, c ∉ p → ∀ t : List Char,
      breakAtChar c (p ++ t) = (p ++ (breakAtChar c t).1, (breakAtChar c t).2)
  | [], _, t => by simp
  | x :: xs, h, t => by
    have hx : ¬ x = c := fun he => h (he ▸ List.mem_cons_self x xs)
    have hxs : c ∉ xs := fun hm => h (List.mem_cons_of_mem _ hm)
    simp [breakAtChar, hx, breakAtChar_append_left hxs t]

theorem breakAtChar_some {c : Char} :
    ∀ {l a b : List Char}, breakAtChar c l = (a, some b) →
      l = a ++ c :: b ∧ c ∉ a
  | [], a, b, h => by simp [breakAtChar] at h
  | x :: xs, a, b, h => by
    by_cases hx : x = c
    · simp [breakAtChar, hx] at h
      obtain ⟨ha, hb⟩ := h
      subst ha; subst hb; subst hx
      simp
    · simp [breakAtChar, hx] at h
      obtain ⟨ha, hb⟩ := h
      obtain ⟨h1, h2⟩ := breakAtChar_some (c := c) (l := xs)
        (a := (breakAtChar c xs).1) (b := b) (by rw [← hb])
      constructor
      · rw [← ha, List.cons_append]
        exact congrArg (List.cons x) h1
      · rw [← ha]
        intro hmem
        rcases List.mem_cons.1 hmem with h' | h'
        · exact hx h'.symm
        · exact h2 h'

theorem breakAtChar_none {c : Char} :
    ∀ {l a : List Char}, breakAtChar c l = (a, none) → a = l ∧ c ∉ l
  | [], a, h => by
    simp [breakAtChar] at h
    simp [h]
  | x :: xs, a, h => by
    by_cases hx : x = c
    · simp [breakAtChar, hx] at h
    · simp [breakAtChar, hx] at h
      obtain ⟨ha, hb⟩ := h
      obtain ⟨h1, h2⟩ := breakAtChar_none (c := c) (l := xs)
        (a := (breakAtChar c xs).1) (by rw [← hb])
      constructor
      · rw [← ha, h1]
      · intro hmem
        rcases List.mem_cons.1 hmem with h' | h'
        · exact hx h'.symm
        · exact h2 h'

theorem takeWhile_dropWhile_append {p : Char → Bool} :
    ∀ {n : List Char}, n.all p = true →
    ∀ {t : List Char}, (∀ c t', t = c :: t' → p c = false) →
      (n ++ t).takeWhile p = n ∧ (n ++ t).dropWhile p = t
  | [], _, t, ht => by
    cases t with
    | nil => simp
    | cons c t' =>
      have := ht c t' rfl
      simp [List.takeWhile, List.dropWhile, this]
  | x :: xs, hn, t, ht => by
    simp only [List.all_cons, Bool.and_eq_true] at hn
    have ih := takeWhile_dropWhile_append hn.2 ht
    simp [List.takeWhile, List.dropWhile, hn.1, ih.1, ih.2]

theorem char_toNat_ofNat {n : Nat} (h : n.isValidChar) :
    (Char.ofNat n).toNat = n := by
  simp [Char.ofNat, h, Char.ofNatAux, Char.toNat, UInt32.toNat]

theorem toLower_eq_of_not_upper {c : Char}
    (h : ¬(65 ≤ c.toNat ∧ c.toNat ≤ 90)) : c.toLower = c := by
  unfold Char.toLower
  simp only [ge_iff_le]
  rw [if_neg]
  intro hc
  exact h ⟨hc.1, hc.2⟩

theorem toNat_toLower_of_upper {c : Char}
    (h : 65 ≤ c.toNat ∧ c.toNat ≤ 90) : c.toLower.toNat = c.toNat + 32 := by
  unfold Char.toLower
  simp only [ge_iff_le]
  rw [if_pos ⟨h.1, h.2⟩]
  exact char_toNat_ofNat (Or.inl (by omega))

theorem isUpper_iff_toNat {c : Char} :
    c.isUpper = true ↔ (65 ≤ c.toNat ∧ c.toNat ≤ 90) := by
  simp only [Char.isUpper, ge_iff_le, Bool.and_eq_true, decide_eq_true_eq,
    UInt32.le_def, BitVec.le_def]
  exact Iff.rfl

theorem isLower_iff_toNat {c : Char} :
    c.isLower = true ↔ (97 ≤ c.toNat ∧ c.toNat ≤ 122) := by
  simp only [Char.isLower, ge_iff_le, Bool.and_eq_true, decide_eq_true_eq,
    UInt32.le_def, BitVec.le_def]
  exact Iff.rfl

theorem isAlpha_toLower {c : Char} (h : c.isAlpha = true) :
    c.toLower.isAlpha = true := by
  by_cases up : 65 ≤ c.toNat ∧ c.toNat ≤ 90
  · have h2 := toNat_toLower_of_upper up
    have : c.toLower.isLower = true := isLower_iff_toNat.2 (by omega)
    simp [Char.isAlpha, this]
  · rw [toLower_eq_of_not_upper up]
    exact h

theorem toLower_toLower (c : Char) : c.toLower.toLower = c.toLower := by
  by_cases up : 65 ≤ c.toNat ∧ c.toNat ≤ 90
  · have h2 := toNat_toLower_of_upper up
    exact toLower_eq_of_not_upper (by omega)
  · rw [toLower_eq_of_not_upper up, toLower_eq_of_not_upper up]

theorem isSchemeChar_toLower {c : Char} (h : isSchemeChar c = true) :
    isSchemeChar c.toLower = true := by
  by_cases up : 65 ≤ c.toNat ∧ c.toNat ≤ 90
  · have h2 := toNat_toLower_of_upper up
    have hl : c.toLower.isLower = true := isLower_iff_toNat.2 (by omega)
    simp [isSchemeChar, Char.isAlpha, hl]
  · rw [toLower_eq_of_not_upper up]
    exact h

theorem not_colon_of_schemeChar {c : Char} (h : isSchemeChar c = true) :
    c ≠ ':' := by
  intro he
  subst he
  exact absurd h (by decide)

theorem lowerStr_all_schemeChar {s : List Char}
    (h : s.all isSchemeChar = true) :
    (lowerStr s).all isSchemeChar = true := by
  rw [List.all_eq_true] at h ⊢
  intro x hx
  simp only [lowerStr, List.mem_map] at hx
  obtain ⟨c, hc, rfl⟩ := hx
  exact isSchemeChar_toLower (h c hc)

theorem lowerStr_idem (s : List Char) : lowerStr (lowerStr s) = lowerStr s := by
  induction s with
  | nil => rfl
  | cons c cs ih =>
    simp only [lowerStr, List.map_cons] at ih ⊢
    rw [toLower_toLower]
    exact congrArg _ ih

theorem colon_not_mem_of_all_schemeChar {s : List Char}
    (h : s.all isSchemeChar = true) : ':' ∉ s := by
  rw [List.all_eq_true] at h
  intro hmem
  exact not_colon_of_schemeChar (h ':' hmem) rfl

theorem isAlpha_false_of_not_schemeChar {c : Char} (h : isSchemeChar c = false) :
    c.isAlpha = false := by
  unfold isSchemeChar at h
  rcases hb : c.isAlpha with _ | _
  · rfl
  · rw [hb] at h
    simp at h

theorem schemeSplit_some_spec {u s r : List Char}
    (h : schemeSplit u = some (s, r)) :
    ∃ c cs, u = (c :: cs) ++ ':' :: r ∧ c.isAlpha = true ∧
      (c :: cs).all isSchemeChar = true ∧ s = lowerStr (c :: cs) := by
  unfold schemeSplit at h
  rcases hbk : breakAtChar ':' u with ⟨pre, o⟩
  rw [hbk] at h
  cases o with
  | none => simp at h
  | some rest =>
    cases pre with
    | nil => simp at h
    | cons c cs =>
      simp at h
      obtain ⟨⟨ha, hc1, hc2⟩, hs, hr⟩ := h
      obtain ⟨hu, -⟩ := breakAtChar_some hbk
      refine ⟨c, cs, by rw [hu, hr], ha, ?_, hs.symm⟩
      simp only [List.all_cons, List.all_eq_true, Bool.and_eq_true]
      exact ⟨hc1, hc2⟩

theorem schemeSplit_build {s : List Char} (r : List Char) (hne : s ≠ [])
    (hhead : ∀ c cs, s = c :: cs → c.isAlpha = true)
    (hall : s.all isSchemeChar = true) (hlow : lowerStr s = s) :
    schemeSplit (s ++ ':' :: r) = some (s, r) := by
  have hcol : ':' ∉ s := colon_not_mem_of_all_schemeChar hall
  unfold schemeSplit
  rw [breakAtChar_append_of_not_mem hcol r]
  cases s with
  | nil => exact absurd rfl hne
  | cons c cs =>
    have hca : c.isAlpha = true := hhead c cs rfl
    simp [hca, hall, hlow]

theorem schemeSplit_cons_none {c : Char} {t : List Char}
    (h1 : c.isAlpha = false) (h2 : c ≠ ':') : schemeSplit (c :: t) = none := by
  unfold schemeSplit
  have hbk : breakAtChar ':' (c :: t) =
      (c :: (breakAtChar ':' t).1, (breakAtChar ':' t).2) := by
    simp [breakAtChar, h2]
  rw [hbk]
  cases hsnd : (breakAtChar ':' t).2 with
  | none => rfl
  | some b => simp [h1]

theorem schemeSplit_prefix_none {u p t : List Char} (hu : schemeSplit u = none)
    (hpt : p ++ t = u) : schemeSplit p = none := by
  rcases hbk : breakAtChar ':' p with ⟨a, o⟩
  cases o with
  | none =>
    unfold schemeSplit
    rw [hbk]
  | some b =>
    obtain ⟨hp, hna⟩ := breakAtChar_some hbk
    have hu' : u = a ++ ':' :: (b ++ t) := by
      rw [← hpt, hp]
      simp
    have hbku : breakAtChar ':' u = (a, some (b ++ t)) := by
      rw [hu']
      exact breakAtChar_append_of_not_mem hna _
    unfold schemeSplit at hu ⊢
    rw [hbku] at hu
    rw [hbk]
    cases a with
    | nil => rfl
    | cons c cs =>
      simp at hu ⊢
      exact hu

theorem schemeSplit_append_sep_none {p q : List Char} {d : Char}
    (hp : schemeSplit p = none) (hd1 : isSchemeChar d = false)
    (hd2 : d ≠ ':') : schemeSplit (p ++ d :: q) = none := by
  rcases hbk : breakAtChar ':' p with ⟨a, o⟩
  cases o with
  | some b =>
    obtain ⟨hpe, hna⟩ := breakAtChar_some hbk
    have hbku : breakAtChar ':' (p ++ d :: q) = (a, some (b ++ d :: q)) := by
      rw [hpe, List.append_assoc, List.cons_append]
      exact breakAtChar_append_of_not_mem hna _
    unfold schemeSplit at hp ⊢
    rw [hbk] at hp
    rw [hbku]
    cases a with
    | nil => rfl
    | cons c cs =>
      simp at hp ⊢
      exact hp
  | none =>
    obtain ⟨-, hnp⟩ := breakAtChar_none hbk
    have hbku := breakAtChar_append_left hnp (d :: q)
    have hbkd : breakAtChar ':' (d :: q) =
        (d :: (breakAtChar ':' q).1, (breakAtChar ':' q).2) := by
      simp [breakAtChar, hd2]
    rw [hbkd] at hbku
    unfold schemeSplit
    rw [hbku]
    cases hsnd : (breakAtChar ':' q).2 with
    | none => rfl
    | some b =>
      cases p with
      | nil =>
        simp [isAlpha_false_of_not_schemeChar hd1]
      | cons x p' =>
        simp [hd1]

theorem splitAfterNetloc_spec (s n rest : List Char) :
    ∃ pa q f, splitAfterNetloc s n rest = ⟨s, n, pa, q, f⟩ ∧
      '#' ∉ pa ∧ '?' ∉ pa ∧ '#' ∉ q ∧ ∃ t, pa ++ t = rest := by
  rcases hf : breakAtChar '#' rest with ⟨r1, of⟩
  rcases hq : breakAtChar '?' r1 with ⟨pa, oq⟩
  have heq : splitAfterNetloc s n rest = ⟨s, n, pa, oq.getD [], of.getD []⟩ := by
    unfold splitAfterNetloc
    rw [hf]
    cases of with
    | none =>
      dsimp only
      rw [hq]
      cases oq <;> rfl
    | some f =>
      dsimp only
      rw [hq]
      cases oq <;> rfl
  have hfacts1 : '#' ∉ r1 ∧ ∃ t1, r1 ++ t1 = rest := by
    cases of with
    | none =>
      obtain ⟨he, hm⟩ := breakAtChar_none hf
      exact ⟨he ▸ hm, [], by rw [he, List.append_nil]⟩
    | some f =>
      obtain ⟨he, hm⟩ := breakAtChar_some hf
      exact ⟨hm, '#' :: f, he.symm⟩
  have hfacts2 : '?' ∉ pa ∧ ∃ t2, pa ++ t2 = r1 := by
    cases oq with
    | none =>
      obtain ⟨he, hm⟩ := breakAtChar_none hq
      exact ⟨he ▸ hm, [], by rw [he, List.append_nil]⟩
    | some q =>
      obtain ⟨he, hm⟩ := breakAtChar_some hq
      exact ⟨hm, '?' :: q, he.symm⟩
  obtain ⟨t2, ht2⟩ := hfacts2.2
  obtain ⟨t1, ht1⟩ := hfacts1.2
  refine ⟨pa, oq.getD [], of.getD [], heq, ?_, hfacts2.1, ?_,
    ⟨t2 ++ t1, by rw [← List.append_assoc, ht2, ht1]⟩⟩
  · intro hc
    exact hfacts1.1 (ht2 ▸ List.mem_append_left _ hc)
  · cases oq with
    | none => simp
    | some q =>
      obtain ⟨he, -⟩ := breakAtChar_some hq
      intro hc
      refine hfacts1.1 ?_
      rw [he]
      exact List.mem_append_right _ (List.mem_cons_of_mem _ hc)

theorem splitAfterNetloc_no_query (s n a : List Char) (h1 : '#' ∉ a)
    (h2 : '?' ∉ a) : splitAfterNetloc s n a = ⟨s, n, a, [], []⟩ := by
  unfold splitAfterNetloc
  rw [breakAtChar_of_not_mem h1]
  dsimp only
  rw [breakAtChar_of_not_mem h2]

theorem splitAfterNetloc_query (s n a q : List Char) (h1 : '#' ∉ a)
    (h2 : '?' ∉ a) (h3 : '#' ∉ q) :
    splitAfterNetloc s n (a ++ '?' :: q) = ⟨s, n, a, q, []⟩ := by
  unfold splitAfterNetloc
  have hh : '#' ∉ a ++ '?' :: q := by
    intro hmem
    rcases List.mem_append.1 hmem with h | h
    · exact h1 h
    · rcases List.mem_cons.1 h with h | h
      · exact absurd h (by decide)
      · exact h3 h
  rw [breakAtChar_of_not_mem hh]
  dsimp only
  rw [breakAtChar_append_of_not_mem h2 q]

theorem splitAfterScheme_netloc (s n t : List Char)
    (hn : n.all isNetlocChar = true)
    (ht : ∀ c t', t = c :: t' → isNetlocChar c = false) :
    splitAfterScheme s ('/' :: '/' :: (n ++ t)) = splitAfterNetloc s n t := by
  unfold splitAfterScheme
  have htk := takeWhile_dropWhile_append hn ht
  rw [if_pos]
  · simp only [List.drop_succ_cons, List.drop_zero]
    rw [htk.1, htk.2]
  · rfl

theorem splitAfterScheme_no_netloc (s r : List Char)
    (h : r.take 2 ≠ ['/', '/']) :
    splitAfterScheme s r = splitAfterNetloc s [] r := by
  unfold splitAfterScheme
  rw [if_neg]
  rw [beq_iff_eq]
  exact h

theorem dropWhile_head_not {p : Char → Bool} :
    ∀ l : List Char, l.dropWhile p = [] ∨
      ∃ c t', l.dropWhile p = c :: t' ∧ p c = false
  | [] => Or.inl rfl
  | x :: xs => by
    rcases hx : p x with _ | _
    · exact Or.inr ⟨x, xs, by simp [List.dropWhile, hx], hx⟩
    · rw [show (x :: xs).dropWhile p = xs.dropWhile p from by
        simp [List.dropWhile, hx]]
      exact dropWhile_head_not xs

theorem all_takeWhile (p : Char → Bool) :
    ∀ l : List Char, (l.takeWhile p).all p = true
  | [] => rfl
  | x :: xs => by
    rcases hx : p x with _ | _
    · simp [List.takeWhile, hx]
    · simp [List.takeWhile, hx, all_takeWhile p xs]

theorem eq_slash_or_of_not_netlocChar {c : Char} (h : isNetlocChar c = false) :
    c = '/' ∨ c = '?' ∨ c = '#' := by
  unfold isNetlocChar at h
  rcases h1 : c == '/' with _ | _
  · rcases h2 : c == '?' with _ | _
    · rcases h3 : c == '#' with _ | _
      · rw [h1, h2, h3] at h
        simp at h
      · exact Or.inr (Or.inr (by simpa [beq_iff_eq] using h3))
    · exact Or.inr (Or.inl (by simpa [beq_iff_eq] using h2))
  · exact Or.inl (by simpa [beq_iff_eq] using h1)

theorem take_two_append_ne {p qp : List Char} (hp : p.take 2 ≠ ['/', '/'])
    (hqp : qp = [] ∨ ∃ q', qp = '?' :: q') :
    (p ++ qp).take 2 ≠ ['/', '/'] := by
  match p with
  | [] =>
    rcases hqp with h | ⟨q', h⟩
    · subst h
      rw [List.nil_append]
      simp at hp
      simp [hp]
    · subst h
      intro hc
      simp [List.take] at hc
  | [a] =>
    rcases hqp with h | ⟨q', h⟩
    · subst h
      rw [List.append_nil]
      exact hp
    · subst h
      intro hc
      simp [List.take] at hc
  | a :: b :: t =>
    intro hc
    simp [List.take] at hc hp
    exact hp hc.1 hc.2

theorem take_one_slash {p : List Char} (h : p.take 1 = ['/']) :
    ∃ p', p = '/' :: p' := by
  cases p with
  | nil => simp at h
  | cons a t =>
    simp [List.take] at h
    exact ⟨t, by rw [h]⟩

theorem splitAtLastSlash_some {l bef aft : List Char}
    (h : splitAtLastSlash l = some (bef, aft)) :
    l = bef ++ '/' :: aft ∧ '/' ∉ aft := by
  unfold splitAtLastSlash at h
  rcases hbk : breakAtChar '/' l.reverse with ⟨ra, ro⟩
  rw [hbk] at h
  cases ro with
  | none => simp at h
  | some rb =>
    simp only [Option.some.injEq, Prod.mk.injEq] at h
    obtain ⟨hb, ha⟩ := h
    obtain ⟨hrev, hmem⟩ := breakAtChar_some hbk
    constructor
    · have := congrArg List.reverse hrev
      simp only [List.reverse_reverse, List.reverse_append,
        List.reverse_cons] at this
      rw [this, ← hb, ← ha]
      simp
    · rw [← ha]
      intro hc
      exact hmem (List.mem_reverse.1 hc)

theorem splitAtLastSlash_none {l : List Char} (h : splitAtLastSlash l = none) :
    '/' ∉ l := by
  unfold splitAtLastSlash at h
  rcases hbk : breakAtChar '/' l.reverse with ⟨ra, ro⟩
  rw [hbk] at h
  cases ro with
  | none =>
    obtain ⟨-, hm⟩ := breakAtChar_none hbk
    intro hc
    exact hm (List.mem_reverse.2 hc)
  | some rb => simp at h

theorem splitAtLastSlash_build {bef aft : List Char} (h : '/' ∉ aft) :
    splitAtLastSlash (bef ++ '/' :: aft) = some (bef, aft) := by
  unfold splitAtLastSlash
  have hrev : (bef ++ '/' :: aft).reverse = aft.reverse ++ '/' :: bef.reverse := by
    simp
  have hna : '/' ∉ aft.reverse := fun hc => h (List.mem_reverse.1 hc)
  rw [hrev, breakAtChar_append_of_not_mem hna]
  simp

theorem splitparams_rejoin {l a b : List Char} (h : splitparams l = (a, b))
    (hb : b ≠ []) : a ++ ';' :: b = l := by
  unfold splitparams at h
  rcases hsl : splitAtLastSlash l with _ | ⟨bef, aft⟩
  · rw [hsl] at h
    dsimp only at h
    rcases hbk : breakAtChar ';' l with ⟨x, o⟩
    rw [hbk] at h
    cases o with
    | none =>
      simp only [Prod.mk.injEq] at h
      exact absurd h.2.symm hb
    | some y =>
      simp only [Prod.mk.injEq] at h
      obtain ⟨hx, hy⟩ := h
      obtain ⟨hl, -⟩ := breakAtChar_some hbk
      rw [hx, hy] at hl
      exact hl.symm
  · rw [hsl] at h
    dsimp only at h
    obtain ⟨hl, hna⟩ := splitAtLastSlash_some hsl
    rcases hbk : breakAtChar ';' aft with ⟨x, o⟩
    rw [hbk] at h
    cases o with
    | none =>
      simp only [Prod.mk.injEq] at h
      exact absurd h.2.symm hb
    | some y =>
      simp only [Prod.mk.injEq] at h
      obtain ⟨hx, hy⟩ := h
      obtain ⟨haft, -⟩ := breakAtChar_some hbk
      rw [← hx, ← hy, hl, haft]
      simp

theorem splitparams_empty_params {l a : List Char}
    (h : splitparams l = (a, [])) : a = l ∨ a ++ [';'] = l := by
  unfold splitparams at h
  rcases hsl : splitAtLastSlash l with _ | ⟨bef, aft⟩
  · rw [hsl] at h
    dsimp only at h
    rcases hbk : breakAtChar ';' l with ⟨x, o⟩
    rw [hbk] at h
    cases o with
    | none =>
      simp only [Prod.mk.injEq] at h
      exact Or.inl h.1.symm
    | some y =>
      simp only [Prod.mk.injEq] at h
      obtain ⟨hx, hy⟩ := h
      obtain ⟨hl, -⟩ := breakAtChar_some hbk
      refine Or.inr ?_
      rw [← hx]
      rw [hl, ← hy]
  · rw [hsl] at h
    dsimp only at h
    obtain ⟨hl, hna⟩ := splitAtLastSlash_some hsl
    rcases hbk : breakAtChar ';' aft with ⟨x, o⟩
    rw [hbk] at h
    cases o with
    | none =>
      simp only [Prod.mk.injEq] at h
      exact Or.inl h.1.symm
    | some y =>
      simp only [Prod.mk.injEq] at h
      obtain ⟨hx, hy⟩ := h
      obtain ⟨haft, -⟩ := breakAtChar_some hbk
      refine Or.inr ?_
      rw [← hx, hl, haft, ← hy]
      simp

theorem splitparams_fst_stable {l a : List Char}
    (h : splitparams l = (a, [])) : splitparams a = (a, []) := by
  have hcopy := h
  unfold splitparams at h
  rcases hsl : splitAtLastSlash l with _ | ⟨bef, aft⟩
  · rw [hsl] at h
    dsimp only at h
    have hnsl := splitAtLastSlash_none hsl
    rcases hbk : breakAtChar ';' l with ⟨x, o⟩
    rw [hbk] at h
    cases o with
    | none =>
      simp only [Prod.mk.injEq] at h
      rw [h.1.symm] at hcopy ⊢
      exact hcopy
    | some y =>
      simp only [Prod.mk.injEq] at h
      obtain ⟨hx, hy⟩ := h
      obtain ⟨hl, hnx⟩ := breakAtChar_some hbk
      have hns : '/' ∉ x := by
        intro hc
        apply hnsl
        rw [hl]
        exact List.mem_append_left _ hc
      rw [← hx]
      unfold splitparams
      rw [show splitAtLastSlash x = none from ?_]
      · dsimp only
        rw [breakAtChar_of_not_mem hnx]
      · rcases hsa : splitAtLastSlash x with _ | ⟨b2, a2⟩
        · rfl
        · obtain ⟨ha2, -⟩ := splitAtLastSlash_some hsa
          exact absurd (by rw [ha2]; simp : '/' ∈ x) hns
  · rw [hsl] at h
    dsimp only at h
    obtain ⟨hl, hna⟩ := splitAtLastSlash_some hsl
    rcases hbk : breakAtChar ';' aft with ⟨x, o⟩
    rw [hbk] at h
    cases o with
    | none =>
      simp only [Prod.mk.injEq] at h
      rw [h.1.symm] at hcopy ⊢
      exact hcopy
    | some y =>
      simp only [Prod.mk.injEq] at h
      obtain ⟨hx, hy⟩ := h
      obtain ⟨haft, hnx⟩ := breakAtChar_some hbk
      have hnsx : '/' ∉ x := by
        intro hc
        apply hna
        rw [haft]
        exact List.mem_append_left _ hc
      rw [← hx]
      unfold splitparams
      rw [splitAtLastSlash_build hnsx]
      dsimp only
      rw [breakAtChar_of_not_mem hnx]

theorem urlsplit_of_urlunsplit (s n p q : List Char)
    (hs1 : ∀ c cs, s = c :: cs → c.isAlpha = true)
    (hs2 : s.all isSchemeChar = true)
    (hs3 : lowerStr s = s)
    (hnet : n.all isNetlocChar = true)
    (hph : '#' ∉ p) (hpq : '?' ∉ p)
    (hqh : '#' ∉ q)
    (hnp : n ≠ [] → p = [] ∨ p.take 1 = ['/'])
    (hnos : s = [] → schemeSplit p = none) :
    urlsplit [] (urlunsplit ⟨s, n, p, q, []⟩) = ⟨s, n, p, q, []⟩ := by
  rcases hA : (!n.isEmpty || (p.take 2 == ['/', '/'])) with _ | _
  case false =>
    -- no netloc part: the body is `p` itself, and `n = []`
    have hn0 : n = [] := by
      rcases Bool.or_eq_false_iff.1 hA with ⟨h1, -⟩
      simpa using h1
    have hp2 : p.take 2 ≠ ['/', '/'] := by
      rcases Bool.or_eq_false_iff.1 hA with ⟨-, h2⟩
      simpa using h2
    subst hn0
    by_cases hq0 : q = []
    · subst hq0
      by_cases hs0 : s = []
      · subst hs0
        have hout : urlunsplit ⟨[], [], p, [], []⟩ = p := by
          simp [urlunsplit, hA, hp2]
        rw [hout]
        unfold urlsplit
        rw [hnos rfl]
        rw [splitAfterScheme_no_netloc _ _ hp2,
          splitAfterNetloc_no_query _ _ _ hph hpq]
      · have hout : urlunsplit ⟨s, [], p, [], []⟩ = s ++ ':' :: p := by
          simp [urlunsplit, hA, hp2, hs0]
        rw [hout]
        unfold urlsplit
        rw [schemeSplit_build p hs0 hs1 hs2 hs3]
        dsimp only
        rw [splitAfterScheme_no_netloc _ _ hp2,
          splitAfterNetloc_no_query _ _ _ hph hpq]
    · by_cases hs0 : s = []
      · subst hs0
        have hout : urlunsplit ⟨[], [], p, q, []⟩ = p ++ '?' :: q := by
          simp [urlunsplit, hA, hp2, hq0]
        rw [hout]
        have hns : schemeSplit (p ++ '?' :: q) = none :=
          schemeSplit_append_sep_none (hnos rfl) (by decide) (by decide)
        unfold urlsplit
        rw [hns]
        rw [splitAfterScheme_no_netloc _ _
          (take_two_append_ne hp2 (Or.inr ⟨q, rfl⟩)),
          splitAfterNetloc_query _ _ _ _ hph hpq hqh]
      · have hout : urlunsplit ⟨s, [], p, q, []⟩ =
            s ++ ':' :: (p ++ '?' :: q) := by
          simp [urlunsplit, hA, hp2, hs0, hq0]
        rw [hout]
        unfold urlsplit
        rw [schemeSplit_build (p ++ '?' :: q) hs0 hs1 hs2 hs3]
        dsimp only
        rw [splitAfterScheme_no_netloc _ _
          (take_two_append_ne hp2 (Or.inr ⟨q, rfl⟩)),
          splitAfterNetloc_query _ _ _ _ hph hpq hqh]
  case true =>
    -- netloc part present: the body is `// ++ n ++ p`
    rw [Bool.or_eq_true] at hA
    have hp01 : p = [] ∨ ∃ p', p = '/' :: p' := by
      rcases hA with h1 | h2
      · have hn : n ≠ [] := by simpa using h1
        rcases hnp hn with h | h
        · exact Or.inl h
        · exact Or.inr (take_one_slash h)
      · have h2' : p.take 2 = ['/', '/'] := by simpa using h2
        right
        cases p with
        | nil => simp at h2'
        | cons a t =>
          simp [List.take] at h2'
          exact ⟨t, by rw [h2'.1]⟩
    have hslash : (!p.isEmpty && (p.take 1 != ['/'])) = false := by
      rcases hp01 with h | ⟨p', h⟩ <;> subst h <;> simp
    have hbound : ∀ (qp : List Char), (qp = [] ∨ ∃ q', qp = '?' :: q') →
        ∀ c t', p ++ qp = c :: t' → isNetlocChar c = false := by
      intro qp hqp c t' hc
      rcases hp01 with h | ⟨p', h⟩
      · subst h
        rcases hqp with h' | ⟨q', h'⟩ <;> subst h'
        · simp at hc
        · simp at hc
          rw [← hc.1]
          decide
      · subst h
        simp at hc
        rw [← hc.1]
        decide
    have hA' : (!n.isEmpty || (p.take 2 == ['/', '/'])) = true := by
      rw [Bool.or_eq_true]
      exact hA
    have hbp : ∀ c t', p = c :: t' → isNetlocChar c = false := by
      intro c t' hc
      exact hbound [] (Or.inl rfl) c t' (by simpa using hc)
    have hbpq : ∀ (q' : List Char) c t', p ++ '?' :: q' = c :: t' →
        isNetlocChar c = false := by
      intro q' c t' hc
      exact hbound ('?' :: q') (Or.inr ⟨q', rfl⟩) c t' hc
    by_cases hq0 : q = []
    · subst hq0
      by_cases hs0 : s = []
      · subst hs0
        have hout : urlunsplit ⟨[], n, p, [], []⟩ = '/' :: '/' :: (n ++ p) := by
          simp [urlunsplit, hA', hslash]
        rw [hout]
        unfold urlsplit
        rw [schemeSplit_cons_none (by decide) (by decide)]
        dsimp only
        rw [splitAfterScheme_netloc _ _ _ hnet hbp]
        rw [splitAfterNetloc_no_query _ _ _ hph hpq]
      · have hout : urlunsplit ⟨s, n, p, [], []⟩ =
            s ++ ':' :: ('/' :: '/' :: (n ++ p)) := by
          simp [urlunsplit, hA', hslash, hs0]
        rw [hout]
        unfold urlsplit
        rw [schemeSplit_build _ hs0 hs1 hs2 hs3]
        dsimp only
        rw [splitAfterScheme_netloc _ _ _ hnet hbp]
        rw [splitAfterNetloc_no_query _ _ _ hph hpq]
    · by_cases hs0 : s = []
      · subst hs0
        have hout : urlunsplit ⟨[], n, p, q, []⟩ =
            '/' :: '/' :: (n ++ (p ++ '?' :: q)) := by
          simp [urlunsplit, hA', hslash, hq0]
        rw [hout]
        unfold urlsplit
        rw [schemeSplit_cons_none (by decide) (by decide)]
        dsimp only
        rw [splitAfterScheme_netloc _ _ _ hnet (hbpq q)]
        rw [splitAfterNetloc_query _ _ _ _ hph hpq hqh]
      · have hout : urlunsplit ⟨s, n, p, q, []⟩ =
            s ++ ':' :: ('/' :: '/' :: (n ++ (p ++ '?' :: q))) := by
          simp [urlunsplit, hA', hslash, hs0, hq0]
        rw [hout]
        unfold urlsplit
        rw [schemeSplit_build _ hs0 hs1 hs2 hs3]
        dsimp only
        rw [splitAfterScheme_netloc _ _ _ hnet (hbpq q)]
        rw [splitAfterNetloc_query _ _ _ _ hph hpq hqh]

theorem splitAfterScheme_wf (sch rest : List Char) :
    ∃ pa q f n,
      splitAfterScheme sch rest = ⟨sch, n, pa, q, f⟩ ∧
      n.all isNetlocChar = true ∧ '#' ∉ pa ∧ '?' ∉ pa ∧ '#' ∉ q ∧
      ((pa = [] ∨ pa.take 1 = ['/']) ∨ (n = [] ∧ ∃ t, pa ++ t = rest)) := by
  by_cases h2 : rest.take 2 = ['/', '/']
  · unfold splitAfterScheme
    rw [if_pos (by rw [beq_iff_eq]; exact h2)]
    obtain ⟨pa, q, f, heq, hph, hpq, hqh, t, hpre⟩ :=
      splitAfterNetloc_spec sch ((rest.drop 2).takeWhile isNetlocChar)
        ((rest.drop 2).dropWhile isNetlocChar)
    refine ⟨pa, q, f, _, heq, all_takeWhile _ _, hph, hpq, hqh, Or.inl ?_⟩
    cases hpa : pa with
    | nil => exact Or.inl rfl
    | cons c pa' =>
      right
      rcases dropWhile_head_not (p := isNetlocChar) (rest.drop 2) with hd | ⟨c', t', hd, hc'⟩
      · rw [hpa, hd] at hpre
        simp at hpre
      · rw [hpa, hd] at hpre
        simp only [List.cons_append, List.cons.injEq] at hpre
        obtain ⟨hcc, -⟩ := hpre
        subst hcc
        rcases eq_slash_or_of_not_netlocChar hc' with h | h | h
        · rw [h]
          rfl
        · rw [h] at hpa
          exact absurd (by rw [hpa]; exact List.mem_cons_self _ _) hpq
        · rw [h] at hpa
          exact absurd (by rw [hpa]; exact List.mem_cons_self _ _) hph
  · unfold splitAfterScheme
    rw [if_neg (by rw [beq_iff_eq]; exact h2)]
    obtain ⟨pa, q, f, heq, hph, hpq, hqh, t, hpre⟩ :=
      splitAfterNetloc_spec sch [] rest
    exact ⟨pa, q, f, [], heq, rfl, hph, hpq, hqh, Or.inr ⟨rfl, t, hpre⟩⟩

theorem urlsplit_wf (u : List Char) :
    (∀ c cs, (urlsplit [] u).scheme = c :: cs → c.isAlpha = true) ∧
    (urlsplit [] u).scheme.all isSchemeChar = true ∧
    lowerStr (urlsplit [] u).scheme = (urlsplit [] u).scheme ∧
    (urlsplit [] u).netloc.all isNetlocChar = true ∧
    '#' ∉ (urlsplit [] u).path ∧ '?' ∉ (urlsplit [] u).path ∧
    '#' ∉ (urlsplit [] u).query ∧
    ((urlsplit [] u).path = [] ∨ (urlsplit [] u).path.take 1 = ['/'] ∨
      schemeSplit (urlsplit [] u).path = none ∨ (urlsplit [] u).scheme ≠ []) ∧
    ((urlsplit [] u).scheme = [] → schemeSplit (urlsplit [] u).path = none) ∧
    ((urlsplit [] u).netloc ≠ [] →
      (urlsplit [] u).path = [] ∨ (urlsplit [] u).path.take 1 = ['/']) := by
  rcases hss : schemeSplit u with _ | ⟨sch, rest⟩
  · have hred : urlsplit [] u = splitAfterScheme [] u := by
      unfold urlsplit
      rw [hss]
    obtain ⟨pa, q, f, n, heq, hnet, hph, hpq, hqh, hshape⟩ :=
      splitAfterScheme_wf [] u
    rw [hred, heq]
    dsimp only
    refine ⟨by intro c cs h; simp at h, rfl, rfl, hnet, hph, hpq, hqh, ?_, ?_, ?_⟩
    · rcases hshape with h | ⟨hn, t, hpre⟩
      · rcases h with h | h
        · exact Or.inl h
        · exact Or.inr (Or.inl h)
      · exact Or.inr (Or.inr (Or.inl (schemeSplit_prefix_none hss hpre)))
    · intro _
      rcases hshape with h | ⟨hn, t, hpre⟩
      · rcases h with h | h
        · rw [h]
          rfl
        · obtain ⟨p', hp'⟩ := take_one_slash h
          rw [hp']
          exact schemeSplit_cons_none (by decide) (by decide)
      · exact schemeSplit_prefix_none hss hpre
    · intro hn
      rcases hshape with h | ⟨hn0, -⟩
      · exact h
      · exact absurd hn0 hn
  · have hred : urlsplit [] u = splitAfterScheme sch rest := by
      unfold urlsplit
      rw [hss]
    obtain ⟨c, cs, hu, hca, hall, hsch⟩ := schemeSplit_some_spec hss
    obtain ⟨pa, q, f, n, heq, hnet, hph, hpq, hqh, hshape⟩ :=
      splitAfterScheme_wf sch rest
    rw [hred, heq]
    dsimp only
    have hschne : sch ≠ [] := by
      rw [hsch]
      simp [lowerStr]
    refine ⟨?_, ?_, ?_, hnet, hph, hpq, hqh,
      Or.inr (Or.inr (Or.inr hschne)), fun h => absurd h hschne, ?_⟩
    · intro c' cs' h
      rw [hsch] at h
      simp only [lowerStr, List.map_cons, List.cons.injEq] at h
      rw [← h.1]
      exact isAlpha_toLower hca
    · rw [hsch]
      exact lowerStr_all_schemeChar hall
    · rw [hsch]
      exact lowerStr_idem _
    · intro hn
      rcases hshape with h | ⟨hn0, -⟩
      · exact h
      · exact absurd hn0 hn

theorem urlparse_normalize_url (u : List Char) :
    urlparse [] (normalize_url u) = { urlparse [] u with fragment := [] } := by
  obtain ⟨w1, w2, w3, w4, w5, w6, w7, -, w9, w10⟩ := urlsplit_wf u
  by_cases hg : (usesParams.contains (urlsplit [] u).scheme &&
      (urlsplit [] u).path.contains ';') = true
  · have hP : urlparse [] u = ⟨(urlsplit [] u).scheme, (urlsplit [] u).netloc,
        (splitparams (urlsplit [] u).path).1,
        (splitparams (urlsplit [] u).path).2,
        (urlsplit [] u).query, (urlsplit [] u).fragment⟩ := by
      unfold urlparse
      rw [if_pos hg]
    rcases hsp : splitparams (urlsplit [] u).path with ⟨a, b⟩
    cases b with
    | cons y ys =>
      have hrej : a ++ ';' :: y :: ys = (urlsplit [] u).path :=
        splitparams_rejoin hsp (by simp)
      have hN : normalize_url u = urlunsplit ⟨(urlsplit [] u).scheme,
          (urlsplit [] u).netloc, (urlsplit [] u).path,
          (urlsplit [] u).query, []⟩ := by
        unfold normalize_url urlunparse
        rw [hP]
        simp [hsp, hrej]
      have step1 : urlsplit [] (normalize_url u) = ⟨(urlsplit [] u).scheme,
          (urlsplit [] u).netloc, (urlsplit [] u).path,
          (urlsplit [] u).query, []⟩ := by
        rw [hN]
        exact urlsplit_of_urlunsplit _ _ _ _ w1 w2 w3 w4 w5 w6 w7 w10 w9
      rw [hP]
      unfold urlparse
      rw [step1]
      dsimp only
      rw [if_pos hg, hsp]
    | nil =>
      have hrel := splitparams_empty_params hsp
      have hsub : ∀ c : Char, c ∈ a → c ∈ (urlsplit [] u).path := by
        intro c hc
        rcases hrel with h | h
        · rw [← h]
          exact hc
        · rw [← h]
          exact List.mem_append_left _ hc
      have hpre : ∃ t, a ++ t = (urlsplit [] u).path := by
        rcases hrel with h | h
        · exact ⟨[], by rw [List.append_nil, h]⟩
        · exact ⟨[';'], h⟩
      have ha1 : '#' ∉ a := fun hc => w5 (hsub _ hc)
      have ha2 : '?' ∉ a := fun hc => w6 (hsub _ hc)
      have hnp' : (urlsplit [] u).netloc ≠ [] → a = [] ∨ a.take 1 = ['/'] := by
        intro hn
        cases ha : a with
        | nil => exact Or.inl rfl
        | cons c a' =>
          right
          have hpath : ∃ t, (urlsplit [] u).path = c :: t := by
            obtain ⟨t, ht⟩ := hpre
            rw [ha] at ht
            exact ⟨a' ++ t, by rw [← ht]; simp⟩
          obtain ⟨t, ht⟩ := hpath
          rcases w10 hn with h | h
          · rw [ht] at h
            simp at h
          · rw [ht] at h
            simp [List.take] at h
            rw [h]
            rfl
      have hnos' : (urlsplit [] u).scheme = [] → schemeSplit a = none := by
        intro h0
        obtain ⟨t, ht⟩ := hpre
        exact schemeSplit_prefix_none (w9 h0) ht
      have hN : normalize_url u = urlunsplit ⟨(urlsplit [] u).scheme,
          (urlsplit [] u).netloc, a, (urlsplit [] u).query, []⟩ := by
        unfold normalize_url urlunparse
        rw [hP]
        simp [hsp]
      have step1 : urlsplit [] (normalize_url u) = ⟨(urlsplit [] u).scheme,
          (urlsplit [] u).netloc, a, (urlsplit [] u).query, []⟩ := by
        rw [hN]
        exact urlsplit_of_urlunsplit _ _ _ _ w1 w2 w3 w4 ha1 ha2 w7 hnp' hnos'
      rw [hP]
      unfold urlparse
      rw [step1]
      dsimp only
      by_cases hg2 : (usesParams.contains (urlsplit [] u).scheme &&
          a.contains ';') = true
      · rw [if_pos hg2, splitparams_fst_stable hsp, hsp]
      · rw [if_neg hg2, hsp]
  · have hP : urlparse [] u = ⟨(urlsplit [] u).scheme, (urlsplit [] u).netloc,
        (urlsplit [] u).path, [], (urlsplit [] u).query,
        (urlsplit [] u).fragment⟩ := by
      unfold urlparse
      rw [if_neg hg]
    have hN : normalize_url u = urlunsplit ⟨(urlsplit [] u).scheme,
        (urlsplit [] u).netloc, (urlsplit [] u).path,
        (urlsplit [] u).query, []⟩ := by
      unfold normalize_url urlunparse
      rw [hP]
      simp
    have step1 : urlsplit [] (normalize_url u) = ⟨(urlsplit [] u).scheme,
        (urlsplit [] u).netloc, (urlsplit [] u).path,
        (urlsplit [] u).query, []⟩ := by
      rw [hN]
      exact urlsplit_of_urlunsplit _ _ _ _ w1 w2 w3 w4 w5 w6 w7 w10 w9
    rw [hP]
    unfold urlparse
    rw [step1]
    dsimp only
    rw [if_neg hg]

theorem normalize_url_idem (u : List Char) :
    normalize_url (normalize_url u) = normalize_url u := by
  have h : normalize_url (normalize_url u) = urlunparse
      ⟨(urlparse [] (normalize_url u)).scheme,
       (urlparse [] (normalize_url u)).netloc,
       (urlparse [] (normalize_url u)).path,
       (urlparse [] (normalize_url u)).params,
       (urlparse [] (normalize_url u)).query, []⟩ := rfl
  rw [h, urlparse_normalize_url u]
  rfl

/-- C8: `normalize_url` is idempotent — `normalize_url (normalize_url u) =
normalize_url u` for every URL string `u` — and it strips exactly the
fragment while preserving every other parsed component (scheme, netloc/host,
path, params, query): re-parsing the normalized URL yields the original
parse with an empty fragment.  On the concrete example,
`normalize_url "http://x.com/a?b=1#frag" = "http://x.com/a?b=1"`. -/
theorem claim_C8_normalize_idempotent_strips_only_fragment :
    (∀ u : List Char, normalize_url (normalize_url u) = normalize_url u) ∧
    (∀ u : List Char, urlparse [] (normalize_url u) =
      { urlparse [] u with fragment := [] }) ∧
    normalize_url "http://x.com/a?b=1#frag".data = "http://x.com/a?b=1".data :=
  ⟨normalize_url_idem, urlparse_normalize_url, by decide⟩

/-! ## Buffer handler claims -/

theorem add_record_buffer (s : BufferState) (r : BufRecord) :
    (add_record s r).buffer = s.buffer ++ [r] ∧
    (add_record s r).mirror = some (s.buffer ++ [r]) := ⟨rfl, rfl⟩

theorem foldl_add_record_spec (rs : List BufRecord) :
    ∀ s : BufferState,
      (rs.foldl add_record s).buffer = s.buffer ++ rs ∧
      (rs = [] ∨ (rs.foldl add_record s).mirror = some (s.buffer ++ rs)) := by
  induction rs with
  | nil => intro s; simp
  | cons r rest ih =>
    intro s
    have h1 := ih (add_record s r)
    have hb : (add_record s r).buffer = s.buffer ++ [r] := rfl
    constructor
    · rw [List.foldl_cons, h1.1, hb]
      simp
    · right
      rcases h1.2 with h | h
      · subst h
        simp only [List.foldl_cons, List.foldl_nil]
        show some (s.buffer ++ [r]) = _
        simp
      · rw [List.foldl_cons, h, hb]
        simp

/-- C3: after every `add_record` call the recovery mirror file holds exactly
the current in-memory buffer contents in order; appending `N` records to a
fresh handler with no intervening flush leaves the buffer equal to that
record list and the mirror equal to it as well, so a crash before any flush
loses none of them. -/
theorem claim_C3_mirror_matches_buffer_after_append :
    (∀ (s : BufferState) (r : BufRecord),
      (add_record s r).mirror = some (add_record s r).buffer) ∧
    (∀ (limit : Nat) (rs : List BufRecord),
      (rs.foldl add_record (initBuffer limit)).buffer = rs ∧
      (rs ≠ [] →
        (rs.foldl add_record (initBuffer limit)).mirror = some rs)) := by
  constructor
  · intro s r
    rfl
  · intro limit rs
    have h := foldl_add_record_spec rs (initBuffer limit)
    have hb : (initBuffer limit).buffer = [] := rfl
    constructor
    · rw [h.1, hb, List.nil_append]
    · intro hne
      rcases h.2 with h' | h'
      · exact absurd h' hne
      · rw [h', hb, List.nil_append]

/-- C3 witness: appending two concrete records to a fresh handler leaves
buffer and mirror equal to exactly those records in order. -/
theorem claim_C3_witness :
    ([BufRecord.subdomain ⟨"api.x.com".data, "x.com".data⟩,
      BufRecord.subdomain ⟨"dev.x.com".data, "x.com".data⟩] : List BufRecord)
        ≠ [] ∧
    (([BufRecord.subdomain ⟨"api.x.com".data, "x.com".data⟩,
       BufRecord.subdomain ⟨"dev.x.com".data, "x.com".data⟩].foldl add_record
        (initBuffer 100)).mirror =
      some [BufRecord.subdomain ⟨"api.x.com".data, "x.com".data⟩,
            BufRecord.subdomain ⟨"dev.x.com".data, "x.com".data⟩]) :=
  ⟨by simp,
   (claim_C3_mirror_matches_buffer_after_append.2 100
     [BufRecord.subdomain ⟨"api.x.com".data, "x.com".data⟩,
      BufRecord.subdomain ⟨"dev.x.com".data, "x.com".data⟩]).2 (by simp)⟩

/-- C2 is a code bug: when `_insert_to_database` raises, `flush`'s `except`
branch re-appends the copied batch onto a buffer that was never cleared
(`self.buffer.extend(data_to_flush)` runs but `self.buffer.clear()` never
did), so after a failed flush the buffer holds every record twice — it is
not "left intact with exactly the same contents".  This theorem evaluates
the embedded `flush` on a failing sink: in general the buffer becomes
`buffer ++ buffer`, and on the concrete one-record buffer it becomes two
copies of that record. -/
theorem claim_C2_flush_failure_duplicates_buffer :
    (∀ s : BufferState, s.buffer ≠ [] →
      (flush false s).1.buffer = s.buffer ++ s.buffer ∧
        (flush false s).2 = 0 ∧
        (flush false s).1.buffer ≠ s.buffer) ∧
    (flush false ⟨[BufRecord.subdomain ⟨"a.x.com".data, "x.com".data⟩],
        some [BufRecord.subdomain ⟨"a.x.com".data, "x.com".data⟩],
        100, 0, 0⟩).1.buffer =
      [BufRecord.subdomain ⟨"a.x.com".data, "x.com".data⟩,
       BufRecord.subdomain ⟨"a.x.com".data, "x.com".data⟩] := by
  constructor
  · intro s hne
    have he : s.buffer.isEmpty = false := by
      rw [List.isEmpty_eq_false]
      exact hne
    refine ⟨by simp [flush, he], by simp [flush, he], ?_⟩
    simp only [flush, he, Bool.false_eq_true, if_false]
    intro hc
    have := congrArg List.length hc
    simp at this
    exact hne this
  · rfl

/-- C2 witness: the general duplication fact applied to the concrete
one-record buffer. -/
theorem claim_C2_witness :
    ([BufRecord.subdomain ⟨"a.x.com".data, "x.com".data⟩] : List BufRecord)
      ≠ [] ∧
    (flush false ⟨[BufRecord.subdomain ⟨"a.x.com".data, "x.com".data⟩],
        some [BufRecord.subdomain ⟨"a.x.com".data, "x.com".data⟩],
        100, 0, 0⟩).1.buffer =
      [BufRecord.subdomain ⟨"a.x.com".data, "x.com".data⟩] ++
        [BufRecord.subdomain ⟨"a.x.com".data, "x.com".data⟩] :=
  ⟨by simp,
   (claim_C2_flush_failure_duplicates_buffer.1
     ⟨[BufRecord.subdomain ⟨"a.x.com".data, "x.com".data⟩],
      some [BufRecord.subdomain ⟨"a.x.com".data, "x.com".data⟩],
      100, 0, 0⟩ (by simp)).1⟩

/-- C10: `final_flush` always deletes the recovery mirror file, even when
the database insert raised — the flush then returns 0 and the buffer is
still non-empty (the failed records survive only in memory, not on disk). -/
theorem claim_C10_final_flush_always_removes_mirror :
    (∀ (insertOk : Bool) (s : BufferState),
      (final_flush insertOk s).1.mirror = none) ∧
    (∀ s : BufferState, s.buffer ≠ [] →
      (final_flush false s).2 = 0 ∧ (final_flush false s).1.buffer ≠ []) := by
  constructor
  · intro insertOk s
    rfl
  · intro s hne
    have he : s.buffer.isEmpty = false := by
      rw [List.isEmpty_eq_false]
      exact hne
    constructor
    · simp [final_flush, flush, he]
    · simp only [final_flush, flush, he, Bool.false_eq_true, if_false]
      simp [hne]

/-- C10 witness: on a concrete non-empty buffer with a failing insert, the
mirror is gone, the flush returned 0 and the buffer is non-empty. -/
theorem claim_C10_witness :
    ([BufRecord.subdomain ⟨"a.x.com".data, "x.com".data⟩] : List BufRecord)
      ≠ [] ∧
    ((final_flush false ⟨[BufRecord.subdomain ⟨"a.x.com".data, "x.com".data⟩],
        some [BufRecord.subdomain ⟨"a.x.com".data, "x.com".data⟩],
        100, 0, 0⟩).2 = 0 ∧
      (final_flush false
        ⟨[BufRecord.subdomain ⟨"a.x.com".data, "x.com".data⟩],
         some [BufRecord.subdomain ⟨"a.x.com".data, "x.com".data⟩],
         100, 0, 0⟩).1.buffer ≠ []) :=
  ⟨by simp,
   claim_C10_final_flush_always_removes_mirror.2
     ⟨[BufRecord.subdomain ⟨"a.x.com".data, "x.com".data⟩],
      some [BufRecord.subdomain ⟨"a.x.com".data, "x.com".data⟩],
      100, 0, 0⟩ (by simp)⟩

/-! ## Link-extractor claims -/

mutual

theorem extractJson_eq_candidates (base : List Char) :
    ∀ d : JValue,
      extract_urls_from_json d base =
        (dictValueCandidates d).map (fun t => normalize_url (urljoin base t))
  | .str s => by
    simp [extract_urls_from_json, dictValueCandidates]
  | .num n => by
    simp [extract_urls_from_json, dictValueCandidates]
  | .boolean b => by
    simp [extract_urls_from_json, dictValueCandidates]
  | .null => by
    simp [extract_urls_from_json, dictValueCandidates]
  | .obj kvs => by
    unfold extract_urls_from_json dictValueCandidates
    exact extractPairs_eq_candidates base kvs
  | .arr xs => by
    unfold extract_urls_from_json dictValueCandidates
    exact extractItems_eq_candidates base xs

theorem extractPairs_eq_candidates (base : List Char) :
    ∀ kvs : List (List Char × JValue),
      extractFromPairs kvs base =
        (dictValueCandidatesPairs kvs).map
          (fun t => normalize_url (urljoin base t))
  | [] => by
    simp [extractFromPairs, dictValueCandidatesPairs]
  | (k, v) :: rest => by
    unfold extractFromPairs dictValueCandidatesPairs
    simp only [List.map_append]
    have hrest := extractPairs_eq_candidates base rest
    match v with
    | .str s =>
      rcases h : urlLikeStr s with _ | _ <;>
        simp [h, hrest]
    | .num n => simp [hrest]
    | .boolean b => simp [hrest]
    | .null => simp [hrest]
    | .obj kvs' =>
      have h1 := extractPairs_eq_candidates base kvs'
      simp [h1, hrest]
    | .arr xs' =>
      have h1 := extractItems_eq_candidates base xs'
      simp [h1, hrest]

theorem extractItems_eq_candidates (base : List Char) :
    ∀ xs : List JValue,
      extractFromItems xs base =
        (dictValueCandidatesItems xs).map
          (fun t => normalize_url (urljoin base t))
  | [] => by
    simp [extractFromItems, dictValueCandidatesItems]
  | x :: rest => by
    unfold extractFromItems dictValueCandidatesItems
    simp only [List.map_append]
    rw [extractJson_eq_candidates base x, extractItems_eq_candidates base rest]

end

/-- C6 counterexample: `extract_urls_from_json` does not yield strings that
sit directly inside a JSON list.  `["https://x.com/a"]` contains a string
value with an `https://` prefix, yet the extractor returns no candidate at
all: a string list element matches neither `isinstance` branch of the
Python function. -/
theorem claim_C6_counterexample_list_string_skipped :
    urlLikeStr "https://x.com/a".data = true ∧
    extract_urls_from_json
      (JValue.arr [JValue.str "https://x.com/a".data])
      "https://x.com/".data = [] := by
  constructor
  · decide
  · simp [extract_urls_from_json, extractFromItems]

/-- C6 corrected: the extractor walks dicts and lists recursively, but the
candidates it yields are exactly the prefix-matching strings that occur as
immediate dictionary values (at any nesting depth, including dictionaries
inside lists), each resolved against the fetched URL with `urljoin` and
normalized, in tree order.  Strings that are direct list elements (or a
top-level string) are skipped. -/
theorem claim_C6_amended_extract_exactly_dict_value_strings :
    ∀ (d : JValue) (base : List Char),
      extract_urls_from_json d base =
        (dictValueCandidates d).map (fun t => normalize_url (urljoin base t)) :=
  fun d base => extractJson_eq_candidates base d

/-! ## Fetch Worker lemmas -/

theorem contains_eq_false_of_not_mem {α} [BEq α] [LawfulBEq α]
    {l : List α} {a : α} (h : a ∉ l) : l.contains a = false := by
  rcases hc : l.contains a with _ | _
  · rfl
  · exact absurd (by simpa using hc) h

theorem contains_eq_true_of_mem {α} [BEq α] [LawfulBEq α]
    {l : List α} {a : α} (h : a ∈ l) : l.contains a = true := by
  simpa using h

theorem emitRecord_visited (st : CrawlState) (r : UrlRecord) :
    (emitRecord st r).visited = st.visited := rfl

theorem bufferLen_emitRecord {st : CrawlState} {b : BufferState}
    (h : st.buf = some b) (r : UrlRecord) :
    bufferLen (emitRecord st r) = bufferLen st + 1 := by
  simp [bufferLen, emitRecord, h, add_url_record, add_record,
    write_buffer_to_json]

theorem emitRecord_buf_isSome {st : CrawlState} {b : BufferState}
    (h : st.buf = some b) (r : UrlRecord) :
    ∃ b', (emitRecord st r).buf = some b' := by
  simp [emitRecord, h]

theorem notePaths_preserves (st : CrawlState) (bd url fu : List Char) :
    (notePaths st bd url fu).buf = st.buf ∧
    (notePaths st bd url fu).visited = st.visited := by
  unfold notePaths
  split <;> (dsimp only; split <;> exact ⟨rfl, rfl⟩)

theorem noteSubdomain_preserves (st : CrawlState) (sub : Option (List Char)) :
    (noteSubdomain st sub).buf = st.buf ∧
    (noteSubdomain st sub).visited = st.visited := by
  unfold noteSubdomain
  cases sub with
  | none => exact ⟨rfl, rfl⟩
  | some sd =>
    dsimp only
    by_cases hc : (!st.found_subdomains.contains sd) = true
    · rw [if_pos hc]
      exact ⟨rfl, rfl⟩
    · rw [if_neg hc]
      exact ⟨rfl, rfl⟩

theorem processCandidates_preserves (args : CrawlArgs) (bd : List Char)
    (depth : Nat) : ∀ (pot : List (List Char)) (st : CrawlState),
    (processCandidates args bd depth pot st).1.buf = st.buf ∧
    (processCandidates args bd depth pot st).1.visited = st.visited
  | [], st => ⟨rfl, rfl⟩
  | normalized :: rest, st => by
    unfold processCandidates
    dsimp only
    split
    · exact processCandidates_preserves args bd depth rest st
    · split
      · exact processCandidates_preserves args bd depth rest st
      · split
        · have hn := noteSubdomain_preserves st (get_subdomain normalized)
          have ih := processCandidates_preserves args bd depth rest
            (noteSubdomain st (get_subdomain normalized))
          split
          · exact ⟨by rw [ih.1, hn.1], by rw [ih.2, hn.2]⟩
          · exact ⟨by rw [ih.1, hn.1], by rw [ih.2, hn.2]⟩
        · exact processCandidates_preserves args bd depth rest st

theorem after_success_bookkeeping (st1 : CrawlState) (b : BufferState)
    (hb1 : st1.buf = some b) (rec : UrlRecord) (bd url fu : List Char)
    (sub : Option (List Char)) :
    (noteSubdomain (notePaths (emitRecord st1 rec) bd url fu) sub).visited =
      st1.visited ∧
    bufferLen (noteSubdomain (notePaths (emitRecord st1 rec) bd url fu) sub) =
      bufferLen st1 + 1 ∧
    (noteSubdomain (notePaths (emitRecord st1 rec) bd url fu) sub).buf =
      some (add_url_record b rec) := by
  have h1 := notePaths_preserves (emitRecord st1 rec) bd url fu
  have h2 := noteSubdomain_preserves
    (notePaths (emitRecord st1 rec) bd url fu) sub
  have hbe : (emitRecord st1 rec).buf = some (add_url_record b rec) := by
    simp [emitRecord, hb1]
  have hb4 : (noteSubdomain (notePaths (emitRecord st1 rec) bd url fu)
      sub).buf = some (add_url_record b rec) := by
    rw [h2.1, h1.1, hbe]
  refine ⟨?_, ?_, hb4⟩
  · rw [h2.2, h1.2, emitRecord_visited]
  · simp [bufferLen, hb4, hb1, add_url_record, add_record,
      write_buffer_to_json]

theorem plus_one_iff_flag {m : Nat} {b : Bool} (hb : b = false) :
    (m + 1 = m + 2 ↔ b = true) := by
  rw [hb]
  constructor
  · intro h
    omega
  · intro h
    exact absurd h (by simp)

set_option maxHeartbeats 1600000 in
theorem crawl_url_attempt (net : List Char → FetchOutcome) (args : CrawlArgs)
    (bd url : List Char) (depth : Nat) (dur : Bool) (st : CrawlState)
    (b : BufferState) (hb : st.buf = some b) (hv : url ∉ st.visited) :
    (crawl_url net args bd url depth false dur st).1.visited =
      st.visited ++ [url] ∧
    (bufferLen (crawl_url net args bd url depth false dur st).1 =
        bufferLen st + 1 ∨
      bufferLen (crawl_url net args bd url depth false dur st).1 =
        bufferLen st + 2) ∧
    (bufferLen (crawl_url net args bd url depth false dur st).1 =
        bufferLen st + 2 ↔
      attemptErrorAfter200 url dur (net url) = true) := by
  have hcont := contains_eq_false_of_not_mem hv
  have hb1 : ({ st with visited := st.visited ++ [url] } : CrawlState).buf =
      some b := hb
  have hsimple : ∀ rec : UrlRecord,
      (emitRecord { st with visited := st.visited ++ [url] } rec).visited =
        st.visited ++ [url] ∧
      bufferLen (emitRecord { st with visited := st.visited ++ [url] } rec) =
        bufferLen st + 1 := by
    intro rec
    exact ⟨emitRecord_visited _ _, bufferLen_emitRecord hb1 rec⟩
  unfold crawl_url
  rw [if_neg Bool.false_ne_true, if_neg (by simpa [hcont] using hv)]
  dsimp only
  rcases hnet : net url with ⟨fu, ct, ms, jr, tr⟩ | ⟨status, ct, ms⟩ | _ |
    msg | msg
  case non200 =>
    exact ⟨(hsimple _).1, Or.inl (hsimple _).2, by
      rw [(hsimple _).2]
      exact plus_one_iff_flag rfl⟩
  case timeout =>
    exact ⟨(hsimple _).1, Or.inl (hsimple _).2, by
      rw [(hsimple _).2]
      exact plus_one_iff_flag rfl⟩
  case clientError =>
    exact ⟨(hsimple _).1, Or.inl (hsimple _).2, by
      rw [(hsimple _).2]
      exact plus_one_iff_flag rfl⟩
  case otherError =>
    exact ⟨(hsimple _).1, Or.inl (hsimple _).2, by
      rw [(hsimple _).2]
      exact plus_one_iff_flag rfl⟩
  case success =>
    dsimp only
    obtain ⟨hv4, hl4, hb4⟩ := after_success_bookkeeping
      { st with visited := st.visited ++ [url] } b hb1
      (mkUrlRecord url depth (some 200) ct (some ms) none) bd url fu
      (get_subdomain fu)
    set ST4 := noteSubdomain (notePaths (emitRecord
      { st with visited := st.visited ++ [url] }
      (mkUrlRecord url depth (some 200) ct (some ms) none)) bd url fu)
      (get_subdomain fu) with hST4
    have hv4' : ST4.visited = st.visited ++ [url] := hv4
    have hl4' : bufferLen ST4 = bufferLen st + 1 := hl4
    have hlen2 : ∀ rec2 : UrlRecord,
        bufferLen (emitRecord ST4 rec2) = bufferLen st + 2 := by
      intro rec2
      rw [bufferLen_emitRecord hb4, hl4']
    have hpp : ∀ (pot : List (List Char)),
        (processCandidates args bd depth pot ST4).1.visited =
          st.visited ++ [url] ∧
        bufferLen (processCandidates args bd depth pot ST4).1 =
          bufferLen st + 1 := by
      intro pot
      have hp := processCandidates_preserves args bd depth pot ST4
      constructor
      · rw [hp.2, hv4']
      · rw [show bufferLen (processCandidates args bd depth pot ST4).1 =
          bufferLen ST4 from by simp [bufferLen, hp.1], hl4']
    have hOk : ∀ pot : List (List Char),
        (if dur = true then (ST4, ([] : List (List Char × Nat)))
          else processCandidates args bd depth pot ST4).1.visited =
          st.visited ++ [url] ∧
        bufferLen (if dur = true then (ST4, ([] : List (List Char × Nat)))
          else processCandidates args bd depth pot ST4).1 =
          bufferLen st + 1 := by
      intro pot
      cases dur with
      | true =>
        simp only [reduceIte]
        exact ⟨hv4', hl4'⟩
      | false =>
        rw [if_neg Bool.false_ne_true]
        exact ⟨(hpp pot).1, (hpp pot).2⟩
    by_cases hj : containsSeq "application/json".data
        (lowerStr (ct.getD [])) = true
    · rw [if_pos hj]
      cases jr with
      | ok v =>
        dsimp only
        by_cases hr : (dictValueCandidates v).any
            (fun t => resolveRaises url t) = true
        · rw [if_pos hr]
          dsimp only
          have hflag : attemptErrorAfter200 url dur
              (FetchOutcome.success fu ct ms (JsonRead.ok v) tr) = true := by
            unfold attemptErrorAfter200
            dsimp only
            rw [if_pos hj]
            exact hr
          refine ⟨by rw [emitRecord_visited, hv4'], Or.inr (hlen2 _), ?_⟩
          rw [hlen2 _]
          exact iff_of_true rfl hflag
        · rw [if_neg hr]
          rw [Bool.not_eq_true] at hr
          dsimp only
          have hflag : attemptErrorAfter200 url dur
              (FetchOutcome.success fu ct ms (JsonRead.ok v) tr) = false := by
            unfold attemptErrorAfter200
            dsimp only
            rw [if_pos hj]
            exact hr
          exact ⟨(hOk _).1, Or.inl (hOk _).2, by
            rw [(hOk _).2]
            exact plus_one_iff_flag hflag⟩
      | decodeError =>
        dsimp only
        have hflag : attemptErrorAfter200 url dur
            (FetchOutcome.success fu ct ms JsonRead.decodeError tr) =
              false := by
          unfold attemptErrorAfter200
          dsimp only
          rw [if_pos hj]
        exact ⟨(hOk _).1, Or.inl (hOk _).2, by
          rw [(hOk _).2]
          exact plus_one_iff_flag hflag⟩
      | raiseTimeout =>
        dsimp only
        have hflag : attemptErrorAfter200 url dur
            (FetchOutcome.success fu ct ms JsonRead.raiseTimeout tr) =
              true := by
          unfold attemptErrorAfter200
          dsimp only
          rw [if_pos hj]
        refine ⟨by rw [emitRecord_visited, hv4'], Or.inr (hlen2 _), ?_⟩
        rw [hlen2 _]
        exact iff_of_true rfl hflag
      | raiseClient m =>
        dsimp only
        have hflag : attemptErrorAfter200 url dur
            (FetchOutcome.success fu ct ms (JsonRead.raiseClient m) tr) =
              true := by
          unfold attemptErrorAfter200
          dsimp only
          rw [if_pos hj]
        refine ⟨by rw [emitRecord_visited, hv4'], Or.inr (hlen2 _), ?_⟩
        rw [hlen2 _]
        exact iff_of_true rfl hflag
      | raiseOther m =>
        dsimp only
        have hflag : attemptErrorAfter200 url dur
            (FetchOutcome.success fu ct ms (JsonRead.raiseOther m) tr) =
              true := by
          unfold attemptErrorAfter200
          dsimp only
          rw [if_pos hj]
        refine ⟨by rw [emitRecord_visited, hv4'], Or.inr (hlen2 _), ?_⟩
        rw [hlen2 _]
        exact iff_of_true rfl hflag
    · have hjn : ¬ containsSeq "application/json".data
          (lowerStr (ct.getD [])) = true := hj
      rw [if_neg hjn]
      by_cases ht : containsSeq "text/html".data (lowerStr (ct.getD [])) = true
      · rw [if_pos ht]
        cases tr with
        | ok hrefs =>
          dsimp only
          cases dur with
          | true =>
            simp only [reduceIte]
            have hflag : attemptErrorAfter200 url true
                (FetchOutcome.success fu ct ms jr (TextRead.ok hrefs)) =
                  false := by
              unfold attemptErrorAfter200
              dsimp only
              rw [if_neg hjn, if_pos ht]
              rfl
            exact ⟨hv4', Or.inl hl4', by
              rw [hl4']
              exact plus_one_iff_flag hflag⟩
          | false =>
            rw [if_neg Bool.false_ne_true]
            by_cases hr : hrefs.any (fun h => resolveRaises url h) = true
            · rw [if_pos hr]
              dsimp only
              have hflag : attemptErrorAfter200 url false
                  (FetchOutcome.success fu ct ms jr (TextRead.ok hrefs)) =
                    true := by
                unfold attemptErrorAfter200
                dsimp only
                rw [if_neg hjn, if_pos ht]
                exact hr
              refine ⟨by rw [emitRecord_visited, hv4'], Or.inr (hlen2 _), ?_⟩
              rw [hlen2 _]
              exact iff_of_true rfl hflag
            · rw [if_neg hr]
              rw [Bool.not_eq_true] at hr
              dsimp only
              rw [if_neg Bool.false_ne_true]
              have hflag : attemptErrorAfter200 url false
                  (FetchOutcome.success fu ct ms jr (TextRead.ok hrefs)) =
                    false := by
                unfold attemptErrorAfter200
                dsimp only
                rw [if_neg hjn, if_pos ht]
                exact hr
              exact ⟨(hpp _).1, Or.inl (hpp _).2, by
                rw [(hpp _).2]
                exact plus_one_iff_flag hflag⟩
        | raiseTimeout =>
          dsimp only
          have hflag : attemptErrorAfter200 url dur
              (FetchOutcome.success fu ct ms jr TextRead.raiseTimeout) =
                true := by
            unfold attemptErrorAfter200
            dsimp only
            rw [if_neg hjn, if_pos ht]
          refine ⟨by rw [emitRecord_visited, hv4'], Or.inr (hlen2 _), ?_⟩
          rw [hlen2 _]
          exact iff_of_true rfl hflag
        | raiseClient m =>
          dsimp only
          have hflag : attemptErrorAfter200 url dur
              (FetchOutcome.success fu ct ms jr (TextRead.raiseClient m)) =
                true := by
            unfold attemptErrorAfter200
            dsimp only
            rw [if_neg hjn, if_pos ht]
          refine ⟨by rw [emitRecord_visited, hv4'], Or.inr (hlen2 _), ?_⟩
          rw [hlen2 _]
          exact iff_of_true rfl hflag
        | raiseErr m =>
          dsimp only
          have hflag : attemptErrorAfter200 url dur
              (FetchOutcome.success fu ct ms jr (TextRead.raiseErr m)) =
                true := by
            unfold attemptErrorAfter200
            dsimp only
            rw [if_neg hjn, if_pos ht]
          refine ⟨by rw [emitRecord_visited, hv4'], Or.inr (hlen2 _), ?_⟩
          rw [hlen2 _]
          exact iff_of_true rfl hflag
      · have htn : ¬ containsSeq "text/html".data
            (lowerStr (ct.getD [])) = true := ht
        rw [if_neg htn]
        dsimp only
        have hflag : attemptErrorAfter200 url dur
            (FetchOutcome.success fu ct ms jr tr) = false := by
          unfold attemptErrorAfter200
          dsimp only
          rw [if_neg hjn, if_neg htn]
        exact ⟨(hOk _).1, Or.inl (hOk _).2, by
          rw [(hOk _).2]
          exact plus_one_iff_flag hflag⟩

/-! ### The scheduler loop (claims C4, C5, C7) -/

theorem drawBatch_false : ∀ (n : Nat) (pending : List (List Char × Nat)),
    drawBatch false n pending = (pending.take n, pending.drop n)
  | 0, pending => by simp [drawBatch]
  | n + 1, [] => by
    simp [drawBatch, drawBatch_false n []]
  | n + 1, x :: rest => by
    simp [drawBatch, drawBatch_false n rest]

/-- C7: an iteration of the scheduler loop with the flag clear and a
non-empty frontier draws exactly the first `min(2*workers, |pending|)`
entries of the FIFO, runs the whole batch, and appends to the remaining
frontier the children of the batch filtered against `visited_urls` as it
stands after the batch (collectNew filters each task's list at merge time). -/
theorem claim_C7_batch_is_front_takeMin_and_filtered_merge
    (net : List Char → FetchOutcome) (args : CrawlArgs) (bd : List Char)
    (dF : Bool) (s : SchedState) (h : s.pending ≠ []) :
    schedStep net args bd false dF s =
      ⟨s.pending.drop (min (args.workers * 2) s.pending.length) ++
        collectNew
          (runBatch net args bd false dF
            (s.pending.take (min (args.workers * 2) s.pending.length))
            s.cs).1.visited
          (runBatch net args bd false dF
            (s.pending.take (min (args.workers * 2) s.pending.length))
            s.cs).2,
       (runBatch net args bd false dF
         (s.pending.take (min (args.workers * 2) s.pending.length))
         s.cs).1⟩ := by
  have hne : (s.pending.isEmpty || false) = false := by
    cases hp : s.pending with
    | nil => exact absurd hp h
    | cons a t => rfl
  unfold schedStep
  rw [if_neg (by rw [hne]; exact Bool.false_ne_true)]
  dsimp only
  rw [drawBatch_false]

theorem claim_C7_witness :
    (initSched "http://x.com/a".data none).pending ≠ [] ∧
    schedStep (fun _ => FetchOutcome.timeout) ⟨1, 1, none, none⟩ "x.com".data
        false false (initSched "http://x.com/a".data none) =
      ⟨(initSched "http://x.com/a".data none).pending.drop
          (min ((⟨1, 1, none, none⟩ : CrawlArgs).workers * 2)
            (initSched "http://x.com/a".data none).pending.length) ++
        collectNew
          (runBatch (fun _ => FetchOutcome.timeout) ⟨1, 1, none, none⟩
            "x.com".data false false
            ((initSched "http://x.com/a".data none).pending.take
              (min ((⟨1, 1, none, none⟩ : CrawlArgs).workers * 2)
                (initSched "http://x.com/a".data none).pending.length))
            (initSched "http://x.com/a".data none).cs).1.visited
          (runBatch (fun _ => FetchOutcome.timeout) ⟨1, 1, none, none⟩
            "x.com".data false false
            ((initSched "http://x.com/a".data none).pending.take
              (min ((⟨1, 1, none, none⟩ : CrawlArgs).workers * 2)
                (initSched "http://x.com/a".data none).pending.length))
            (initSched "http://x.com/a".data none).cs).2,
       (runBatch (fun _ => FetchOutcome.timeout) ⟨1, 1, none, none⟩
         "x.com".data false false
         ((initSched "http://x.com/a".data none).pending.take
           (min ((⟨1, 1, none, none⟩ : CrawlArgs).workers * 2)
             (initSched "http://x.com/a".data none).pending.length))
         (initSched "http://x.com/a".data none).cs).1⟩ :=
  ⟨by decide,
   claim_C7_batch_is_front_takeMin_and_filtered_merge
     (fun _ => FetchOutcome.timeout) ⟨1, 1, none, none⟩ "x.com".data false
     (initSched "http://x.com/a".data none) (by decide)⟩

/-! ### `get_subdomain` (claim C9) -/

theorem subdomain_cond_iff (l : List Char) :
    (!l.isEmpty && l != "www".data) = true ↔
      (l ≠ [] ∧ l ≠ "www".data) := by
  rw [Bool.and_eq_true, Bool.not_eq_true', bne_iff_ne]
  constructor
  · rintro ⟨h1, h2⟩
    refine ⟨?_, h2⟩
    intro e
    rw [e] at h1
    exact absurd h1 (by decide)
  · rintro ⟨h1, h2⟩
    refine ⟨?_, h2⟩
    cases l with
    | nil => exact absurd rfl h1
    | cons a t => rfl

/-- C9: `get_subdomain` returns `subdomain.domain.suffix` exactly when the
extracted subdomain is non-empty and not the bare label `www`, and `none`
otherwise; in particular the three spec examples hold. -/
theorem claim_C9_get_subdomain_below_registrable_excluding_www :
    get_subdomain "https://api.example.com/x".data =
      some "api.example.com".data ∧
    get_subdomain "https://www.example.com".data = none ∧
    get_subdomain "https://example.com".data = none ∧
    (∀ url : List Char, get_subdomain url = none ↔
      ((tldExtract url).subdomain = [] ∨
        (tldExtract url).subdomain = "www".data)) ∧
    (∀ url : List Char, get_subdomain url =
      if (tldExtract url).subdomain ≠ [] ∧
          (tldExtract url).subdomain ≠ "www".data then
        some ((tldExtract url).subdomain ++ '.' :: (tldExtract url).domain ++
          '.' :: (tldExtract url).suffix)
      else none) := by
  refine ⟨by decide, by decide, by decide, ?_, ?_⟩
  · intro url
    unfold get_subdomain
    dsimp only
    by_cases hc : (!(tldExtract url).subdomain.isEmpty &&
        (tldExtract url).subdomain != "www".data) = true
    · rw [if_pos hc]
      obtain ⟨h1, h2⟩ := (subdomain_cond_iff _).1 hc
      simp [h1, h2]
    · rw [if_neg hc]
      have h12 := fun a b => hc ((subdomain_cond_iff _).2 ⟨a, b⟩)
      simp only [true_iff]
      by_cases h1 : (tldExtract url).subdomain = []
      · exact Or.inl h1
      · exact Or.inr (by
          by_contra h2
          exact h12 h1 h2)
  · intro url
    unfold get_subdomain
    dsimp only
    by_cases hc : (!(tldExtract url).subdomain.isEmpty &&
        (tldExtract url).subdomain != "www".data) = true
    · rw [if_pos hc]
      obtain ⟨h1, h2⟩ := (subdomain_cond_iff _).1 hc
      rw [if_pos ⟨h1, h2⟩]
    · rw [if_neg hc]
      rw [if_neg (fun h => hc ((subdomain_cond_iff _).2 h))]

/-- C5: once the shutdown flag is set, a scheduler iteration dispatches
nothing (the loop-condition check makes `schedStep` the identity, whatever
the frontier holds); an attempt that passed its entry check before the flag
was set still runs to completion and buffers at least one record for its
URL even if the flag is raised during its body (`dur` arbitrary, in
particular `true`); and the session's terminal status is `interrupted`,
not `completed`, whenever the flag is set at the end. -/
theorem claim_C5_cancellation_stops_dispatch_not_inflight_attempts
    (net : List Char → FetchOutcome) (args : CrawlArgs) (bd url : List Char)
    (depth : Nat) (dur : Bool) (st : CrawlState) (b : BufferState)
    (hb : st.buf = some b) (hv : url ∉ st.visited) :
    (∀ (dF : Bool) (s : SchedState), schedStep net args bd true dF s = s) ∧
    (crawl_url net args bd url depth false dur st).1.visited =
      st.visited ++ [url] ∧
    bufferLen st + 1 ≤ bufferLen (crawl_url net args bd url depth false dur st).1 ∧
    finalStatus true = "interrupted".data ∧
    finalStatus false = "completed".data ∧
    finalStatus true ≠ finalStatus false := by
  obtain ⟨h1, h2, _⟩ := crawl_url_attempt net args bd url depth dur st b hb hv
  refine ⟨?_, h1, ?_, rfl, rfl, by decide⟩
  · intro dF s
    unfold schedStep
    rw [if_pos (by rw [Bool.or_true])]
  · rcases h2 with h | h
    · rw [h]
    · rw [h]
      omega

theorem claim_C5_witness :
    ((⟨[], [], [], some (initBuffer 10)⟩ : CrawlState).buf =
      some (initBuffer 10)) ∧
    ("http://x.com/a".data ∉
      (⟨[], [], [], some (initBuffer 10)⟩ : CrawlState).visited) ∧
    ((∀ (dF : Bool) (s : SchedState),
      schedStep (fun _ => FetchOutcome.timeout) ⟨1, 1, none, none⟩
        "x.com".data true dF s = s) ∧
    (crawl_url (fun _ => FetchOutcome.timeout) ⟨1, 1, none, none⟩ "x.com".data
        "http://x.com/a".data 0 false true
        ⟨[], [], [], some (initBuffer 10)⟩).1.visited =
      (⟨[], [], [], some (initBuffer 10)⟩ : CrawlState).visited ++
        ["http://x.com/a".data] ∧
    bufferLen (⟨[], [], [], some (initBuffer 10)⟩ : CrawlState) + 1 ≤
      bufferLen (crawl_url (fun _ => FetchOutcome.timeout) ⟨1, 1, none, none⟩
        "x.com".data "http://x.com/a".data 0 false true
        ⟨[], [], [], some (initBuffer 10)⟩).1 ∧
    finalStatus true = "interrupted".data ∧
    finalStatus false = "completed".data ∧
    finalStatus true ≠ finalStatus false) :=
  ⟨rfl, by decide,
   claim_C5_cancellation_stops_dispatch_not_inflight_attempts
     (fun _ => FetchOutcome.timeout) ⟨1, 1, none, none⟩ "x.com".data
     "http://x.com/a".data 0 true ⟨[], [], [], some (initBuffer 10)⟩
     (initBuffer 10) rfl (by decide)⟩

/-- C1 (counterexample): a single fetch attempt can buffer TWO records.
With a 200 `text/html` response whose body read raises, `crawl_url` first
buffers the success record (status 200) and then the `except Exception`
handler buffers a second, error record for the same attempt — so after one
attempt `|visited| = 1` but two OutcomeRecords were produced, refuting
"exactly one record per attempt". -/
theorem claim_C1_counterexample_double_record :
    (crawl_url
        (fun _ => FetchOutcome.success "http://x.com/a".data
          (some "text/html".data) 5 JsonRead.decodeError
          (TextRead.raiseErr "boom".data))
        ⟨1, 1, none, none⟩ "x.com".data "http://x.com/a".data 0 false false
        ⟨[], [], [], some (initBuffer 100)⟩).1.visited.length = 1 ∧
    bufferLen (crawl_url
        (fun _ => FetchOutcome.success "http://x.com/a".data
          (some "text/html".data) 5 JsonRead.decodeError
          (TextRead.raiseErr "boom".data))
        ⟨1, 1, none, none⟩ "x.com".data "http://x.com/a".data 0 false false
        ⟨[], [], [], some (initBuffer 100)⟩).1 = 2 := by decide

/-- C1 (amended): a shutdown-skipped call and a deduplicated call touch
nothing (they are not visit attempts: neither the visited set nor the
buffer moves), and a real attempt on a fresh URL appends exactly one URL
to `visited_urls` and buffers exactly one record — except when the attempt
reaches the 200 branch and then raises out of it after the success record
was emitted: the body read raising `asyncio.TimeoutError`, an
`aiohttp.ClientError` or any other exception, or candidate resolution
raising `ValueError("Invalid IPv6 URL")` on a bracket-malformed string (a
dict-value candidate, or — when the shutdown flag is still clear so the
anchor loop resolves — an HTML `href`).  In exactly those cases two records
(the success record, then the matching `except` branch's error record) are
buffered for the one attempt. -/
theorem claim_C1_amended_one_record_per_attempt_except_body_read_raise
    (net : List Char → FetchOutcome) (args : CrawlArgs) (bd url : List Char)
    (depth : Nat) (dur : Bool) (st : CrawlState) (b : BufferState)
    (hb : st.buf = some b) (hv : url ∉ st.visited) :
    (∀ st2 : CrawlState, crawl_url net args bd url depth true dur st2 =
      (st2, [])) ∧
    (∀ st2 : CrawlState, st2.visited.contains url = true →
      crawl_url net args bd url depth false dur st2 = (st2, [])) ∧
    (crawl_url net args bd url depth false dur st).1.visited =
      st.visited ++ [url] ∧
    (bufferLen (crawl_url net args bd url depth false dur st).1 =
        bufferLen st + 1 ∨
      bufferLen (crawl_url net args bd url depth false dur st).1 =
        bufferLen st + 2) ∧
    (bufferLen (crawl_url net args bd url depth false dur st).1 =
        bufferLen st + 2 ↔
      attemptErrorAfter200 url dur (net url) = true) := by
  refine ⟨?_, ?_, crawl_url_attempt net args bd url depth dur st b hb hv⟩
  · intro st2
    unfold crawl_url
    rw [if_pos rfl]
  · intro st2 h2
    unfold crawl_url
    rw [if_neg Bool.false_ne_true, if_pos h2]

theorem claim_C1_witness :
    ((⟨[], [], [], some (initBuffer 10)⟩ : CrawlState).buf =
      some (initBuffer 10)) ∧
    ("http://x.com/a".data ∉
      (⟨[], [], [], some (initBuffer 10)⟩ : CrawlState).visited) ∧
    ((∀ st2 : CrawlState, crawl_url (fun _ => FetchOutcome.timeout)
        ⟨1, 1, none, none⟩ "x.com".data "http://x.com/a".data 0 true false
        st2 = (st2, [])) ∧
    (∀ st2 : CrawlState, st2.visited.contains "http://x.com/a".data = true →
      crawl_url (fun _ => FetchOutcome.timeout) ⟨1, 1, none, none⟩
        "x.com".data "http://x.com/a".data 0 false false st2 = (st2, [])) ∧
    (crawl_url (fun _ => FetchOutcome.timeout) ⟨1, 1, none, none⟩
        "x.com".data "http://x.com/a".data 0 false false
        ⟨[], [], [], some (initBuffer 10)⟩).1.visited =
      (⟨[], [], [], some (initBuffer 10)⟩ : CrawlState).visited ++
        ["http://x.com/a".data] ∧
    (bufferLen (crawl_url (fun _ => FetchOutcome.timeout) ⟨1, 1, none, none⟩
        "x.com".data "http://x.com/a".data 0 false false
        ⟨[], [], [], some (initBuffer 10)⟩).1 =
      bufferLen (⟨[], [], [], some (initBuffer 10)⟩ : CrawlState) + 1 ∨
     bufferLen (crawl_url (fun _ => FetchOutcome.timeout) ⟨1, 1, none, none⟩
        "x.com".data "http://x.com/a".data 0 false false
        ⟨[], [], [], some (initBuffer 10)⟩).1 =
      bufferLen (⟨[], [], [], some (initBuffer 10)⟩ : CrawlState) + 2) ∧
    (bufferLen (crawl_url (fun _ => FetchOutcome.timeout) ⟨1, 1, none, none⟩
        "x.com".data "http://x.com/a".data 0 false false
        ⟨[], [], [], some (initBuffer 10)⟩).1 =
      bufferLen (⟨[], [], [], some (initBuffer 10)⟩ : CrawlState) + 2 ↔
      attemptErrorAfter200 "http://x.com/a".data false
        ((fun _ => FetchOutcome.timeout) "http://x.com/a".data) = true)) :=
  ⟨rfl, by decide,
   claim_C1_amended_one_record_per_attempt_except_body_read_raise
     (fun _ => FetchOutcome.timeout) ⟨1, 1, none, none⟩ "x.com".data
     "http://x.com/a".data 0 false ⟨[], [], [], some (initBuffer 10)⟩
     (initBuffer 10) rfl (by decide)⟩

/-! ### Depth law (claim C4) -/

theorem processCandidates_child_depth (args : CrawlArgs) (bd : List Char)
    (depth : Nat) :
    ∀ (pot : List (List Char)) (st : CrawlState) (c : List Char × Nat),
      c ∈ (processCandidates args bd depth pot st).2 →
      c.2 = depth + 1 ∧ (depth : Int) < args.max_depth := by
  intro pot
  induction pot with
  | nil =>
    intro st c hc
    simp [processCandidates] at hc
  | cons normalized rest ih =>
    intro st c hc
    rw [processCandidates] at hc
    dsimp only at hc
    by_cases h1 : (!((urlparse [] normalized).scheme == "http".data ||
        (urlparse [] normalized).scheme == "https".data)) = true
    · rw [if_pos h1] at hc
      exact ih st c hc
    · rw [if_neg h1] at hc
      by_cases h2 : should_exclude normalized args.exclude_paths
          args.exclude_subdomains = true
      · rw [if_pos h2] at hc
        exact ih st c hc
      · rw [if_neg h2] at hc
        by_cases h3 : is_same_domain normalized bd = true
        · rw [if_pos h3] at hc
          by_cases h4 : (depth : Int) < args.max_depth
          · rw [if_pos h4] at hc
            dsimp only at hc
            rcases List.mem_cons.mp hc with hceq | hmem
            · exact ⟨by rw [hceq], h4⟩
            · exact ih _ c hmem
          · rw [if_neg h4] at hc
            exact ih _ c hc
        · rw [if_neg h3] at hc
          exact ih st c hc

theorem crawl_url_children (net : List Char → FetchOutcome) (args : CrawlArgs)
    (bd url : List Char) (depth : Nat) (eF dF : Bool) (st : CrawlState) :
    ∀ c ∈ (crawl_url net args bd url depth eF dF st).2,
      c.2 = depth + 1 ∧ (depth : Int) < args.max_depth := by
  intro c hc
  unfold crawl_url at hc
  by_cases he : eF = true
  · rw [if_pos he] at hc
    exact absurd hc (List.not_mem_nil c)
  · rw [if_neg he] at hc
    by_cases hcont : st.visited.contains url = true
    · rw [if_pos hcont] at hc
      exact absurd hc (List.not_mem_nil c)
    · rw [if_neg hcont] at hc
      dsimp only at hc
      revert hc
      rcases net url with ⟨fu, ct, ms, jr, tr⟩ | ⟨status, ct, ms⟩ | _ |
        msg | msg
      rotate_left 1
      · intro hc
        exact absurd hc (List.not_mem_nil c)
      · intro hc
        exact absurd hc (List.not_mem_nil c)
      · intro hc
        exact absurd hc (List.not_mem_nil c)
      · intro hc
        exact absurd hc (List.not_mem_nil c)
      intro hc
      dsimp only at hc
      by_cases hj : containsSeq "application/json".data
          (lowerStr (ct.getD [])) = true
      · rw [if_pos hj] at hc
        cases jr with
        | ok v =>
          dsimp only at hc
          by_cases hr : (dictValueCandidates v).any
              (fun t => resolveRaises url t) = true
          · rw [if_pos hr] at hc
            dsimp only at hc
            exact absurd hc (List.not_mem_nil c)
          · rw [if_neg hr] at hc
            dsimp only at hc
            by_cases hd : dF = true
            · rw [hd] at hc
              rw [if_pos rfl] at hc
              exact absurd hc (List.not_mem_nil c)
            · rw [Bool.not_eq_true] at hd
              rw [hd, if_neg Bool.false_ne_true] at hc
              exact processCandidates_child_depth args bd depth _ _ c hc
        | decodeError =>
          dsimp only at hc
          by_cases hd : dF = true
          · rw [hd] at hc
            rw [if_pos rfl] at hc
            exact absurd hc (List.not_mem_nil c)
          · rw [Bool.not_eq_true] at hd
            rw [hd, if_neg Bool.false_ne_true] at hc
            exact processCandidates_child_depth args bd depth _ _ c hc
        | raiseTimeout =>
          dsimp only at hc
          exact absurd hc (List.not_mem_nil c)
        | raiseClient m =>
          dsimp only at hc
          exact absurd hc (List.not_mem_nil c)
        | raiseOther m =>
          dsimp only at hc
          exact absurd hc (List.not_mem_nil c)
      · rw [if_neg hj] at hc
        by_cases ht : containsSeq "text/html".data
            (lowerStr (ct.getD [])) = true
        · rw [if_pos ht] at hc
          cases tr with
          | ok hrefs =>
            dsimp only at hc
            by_cases hd : dF = true
            · rw [hd] at hc
              simp only [reduceIte] at hc
              exact absurd hc (List.not_mem_nil c)
            · rw [Bool.not_eq_true] at hd
              rw [hd, if_neg Bool.false_ne_true] at hc
              by_cases hr : hrefs.any (fun h => resolveRaises url h) = true
              · rw [if_pos hr] at hc
                dsimp only at hc
                exact absurd hc (List.not_mem_nil c)
              · rw [if_neg hr] at hc
                dsimp only at hc
                rw [if_neg Bool.false_ne_true] at hc
                exact processCandidates_child_depth args bd depth _ _ c hc
          | raiseTimeout =>
            dsimp only at hc
            exact absurd hc (List.not_mem_nil c)
          | raiseClient m =>
            dsimp only at hc
            exact absurd hc (List.not_mem_nil c)
          | raiseErr m =>
            dsimp only at hc
            exact absurd hc (List.not_mem_nil c)
        · rw [if_neg ht] at hc
          dsimp only at hc
          by_cases hd : dF = true
          · rw [hd] at hc
            rw [if_pos rfl] at hc
            exact absurd hc (List.not_mem_nil c)
          · rw [Bool.not_eq_true] at hd
            rw [hd, if_neg Bool.false_ne_true] at hc
            exact processCandidates_child_depth args bd depth _ _ c hc

theorem collectNew_mem {visited : List (List Char)} :
    ∀ {rs : List (List (List Char × Nat))} {e : List Char × Nat},
      e ∈ collectNew visited rs → ∃ r ∈ rs, e ∈ r := by
  intro rs
  induction rs with
  | nil =>
    intro e he
    simp [collectNew] at he
  | cons r rest ih =>
    intro e he
    rw [collectNew] at he
    rcases List.mem_append.mp he with h | h
    · exact ⟨r, List.mem_cons_self r rest, (List.mem_filter.mp h).1⟩
    · obtain ⟨r2, hr2, he2⟩ := ih h
      exact ⟨r2, List.mem_cons_of_mem r hr2, he2⟩

theorem runBatch_children_le (net : List Char → FetchOutcome)
    (args : CrawlArgs) (bd : List Char) (eF dF : Bool) :
    ∀ (batch : List (List Char × Nat)) (st : CrawlState)
      (l : List (List Char × Nat)),
      l ∈ (runBatch net args bd eF dF batch st).2 →
      ∀ c ∈ l, (c.2 : Int) ≤ args.max_depth := by
  intro batch
  induction batch with
  | nil =>
    intro st l hl
    simp [runBatch] at hl
  | cons e rest ih =>
    intro st l hl c hc
    rw [runBatch] at hl
    rcases List.mem_cons.mp hl with h | h
    · obtain ⟨hd1, hd2⟩ := crawl_url_children net args bd e.1 e.2 eF dF st c
        (by rw [h] at hc; exact hc)
      rw [hd1]
      push_cast
      omega
    · exact ih _ l h c hc

theorem schedStep_depth_invariant (net : List Char → FetchOutcome)
    (args : CrawlArgs) (bd : List Char) (f dF : Bool) (s : SchedState)
    (hs : ∀ e ∈ s.pending, (e.2 : Int) ≤ args.max_depth) :
    ∀ e ∈ (schedStep net args bd f dF s).pending,
      (e.2 : Int) ≤ args.max_depth := by
  unfold schedStep
  by_cases hcnd : (s.pending.isEmpty || f) = true
  · rw [if_pos hcnd]
    exact hs
  · rw [if_neg hcnd]
    have hf : f = false := by
      rcases f with _ | _
      · rfl
      · exact absurd (by rw [Bool.or_true]) hcnd
    subst hf
    dsimp only
    rw [drawBatch_false]
    intro e he
    rcases List.mem_append.mp he with h | h
    · exact hs e (List.mem_of_mem_drop h)
    · obtain ⟨r, hr, her⟩ := collectNew_mem h
      exact runBatch_children_le net args bd false dF _ _ r hr e her

theorem schedRun_depth_invariant (net : List Char → FetchOutcome)
    (args : CrawlArgs) (bd : List Char) :
    ∀ (sched : List (Bool × Bool)) (s : SchedState),
      (∀ e ∈ s.pending, (e.2 : Int) ≤ args.max_depth) →
      ∀ e ∈ (schedRun net args bd sched s).pending,
        (e.2 : Int) ≤ args.max_depth := by
  intro sched
  induction sched with
  | nil =>
    intro s hs
    exact hs
  | cons fl rest ih =>
    intro s hs
    rw [schedRun]
    exact ih _ (schedStep_depth_invariant net args bd fl.1 fl.2 s hs)

/-- C4: every child frontier entry a fetch attempt emits carries depth
`parent + 1` and is emitted only when the parent's depth is strictly below
`max_depth`; consequently, for a session started at depth 0 with a
non-negative `max_depth`, every entry ever present in the frontier under
any schedule of flag values satisfies `depth ≤ max_depth`. -/
theorem claim_C4_child_depth_plus_one_and_frontier_bounded
    (net : List Char → FetchOutcome) (args : CrawlArgs) (bd base : List Char)
    (sched : List (Bool × Bool)) (buf : Option BufferState)
    (hmd : 0 ≤ args.max_depth) :
    (∀ (url : List Char) (depth : Nat) (eF dF : Bool) (st : CrawlState),
      ∀ c ∈ (crawl_url net args bd url depth eF dF st).2,
        c.2 = depth + 1 ∧ (depth : Int) < args.max_depth) ∧
    (∀ e ∈ (schedRun net args bd sched (initSched base buf)).pending,
      (e.2 : Int) ≤ args.max_depth) := by
  constructor
  · intro url depth eF dF st c hc
    exact crawl_url_children net args bd url depth eF dF st c hc
  · apply schedRun_depth_invariant
    intro e he
    rcases List.mem_cons.mp he with h | h
    · rw [h]
      exact hmd
    · exact absurd h (List.not_mem_nil e)

theorem claim_C4_witness :
    ((0 : Int) ≤ (⟨1, 1, none, none⟩ : CrawlArgs).max_depth) ∧
    ((∀ (url : List Char) (depth : Nat) (eF dF : Bool) (st : CrawlState),
      ∀ c ∈ (crawl_url (fun _ => FetchOutcome.timeout) ⟨1, 1, none, none⟩
          "x.com".data url depth eF dF st).2,
        c.2 = depth + 1 ∧
          (depth : Int) < (⟨1, 1, none, none⟩ : CrawlArgs).max_depth) ∧
    (∀ e ∈ (schedRun (fun _ => FetchOutcome.timeout) ⟨1, 1, none, none⟩
        "x.com".data [(false, false)]
        (initSched "http://x.com/a".data none)).pending,
      (e.2 : Int) ≤ (⟨1, 1, none, none⟩ : CrawlArgs).max_depth)) :=
  ⟨by decide,
   claim_C4_child_depth_plus_one_and_frontier_bounded
     (fun _ => FetchOutcome.timeout) ⟨1, 1, none, none⟩ "x.com".data
     "http://x.com/a".data [(false, false)] none (by decide)⟩

end Crwlr
